import Mathlib

/-!
# search-local.js: a shallow embedding and its verified properties

The development embeds `wp-content/themes/qtes9gu0k/assets/js/5djb21/search-local.js`.

* JavaScript strings are modelled as `List Char` (well-formed Unicode text).  All
  patterns of the script are ASCII, and the only non-ASCII sensitive class, `\s`,
  contains BMP characters only, so matching by code point and by UTF-16 code unit agree.
* Regular expressions are modelled by a small backtracking matcher that returns every
  match in the priority order of the ECMAScript matcher; `exec` is its first result.
* Promises are modelled by the value they settle to: `Except message value`.
* The network is an oracle from the requested URL to the reply that arrives.
-/

namespace SearchLocal

set_option maxRecDepth 100000

/-- JavaScript string: a list of characters. -/
abbrev Str := List Char

/-! ## JavaScript string primitives -/

/-- Remainder of `inp` after the literal text `p`, when `inp` starts with `p`. -/
def dropLit : Str → Str → Option Str
  | [], inp => some inp
  | _ :: _, [] => none
  | p :: ps, c :: cs => if p = c then dropLit ps cs else none

/-- Index of the first occurrence of `pat`: `String.prototype.indexOf`, with `none` for `-1`. -/
def indexOf (pat : Str) : Str → Option Nat
  | [] => if pat = [] then some 0 else none
  | c :: cs =>
    if (dropLit pat (c :: cs)).isSome then some 0
    else (indexOf pat cs).map (· + 1)

/-- Replace the first occurrence of the text `pat` by `rep`: `String.prototype.replace`
with a string pattern (the replacement texts of the script contain no `$`). -/
def replaceFirst (pat rep : Str) : Str → Str
  | [] => if pat = [] then rep else []
  | c :: cs =>
    match dropLit pat (c :: cs) with
    | some r => rep ++ r
    | none => c :: replaceFirst pat rep cs

/-- Worker of `splitOn`: `skip` characters of the current separator are still to be
passed over, `acc` is the reversed current segment. -/
def splitAux (sep : Str) : Nat → Str → Str → List Str
  | _, acc, [] => [acc.reverse]
  | skip + 1, acc, _ :: cs => splitAux sep skip acc cs
  | 0, acc, c :: cs =>
    if (dropLit sep (c :: cs)).isSome then acc.reverse :: splitAux sep (sep.length - 1) [] cs
    else splitAux sep 0 (c :: acc) cs

/-- Split at every occurrence of a non-empty separator: `String.prototype.split`. -/
def splitOn (sep : Str) (s : Str) : List Str := splitAux sep 0 [] s

/-- Upper-case hexadecimal digit. -/
def hexDigit (n : Nat) : Char :=
  if n < 10 then Char.ofNat (48 + n) else Char.ofNat (55 + n)

/-- UTF-8 encoding of a code point. -/
def utf8Bytes (c : Char) : List Nat :=
  let n := c.toNat
  if n < 0x80 then [n]
  else if n < 0x800 then [0xC0 + n / 64, 0x80 + n % 64]
  else if n < 0x10000 then [0xE0 + n / 4096, 0x80 + n / 64 % 64, 0x80 + n % 64]
  else [0xF0 + n / 262144, 0x80 + n / 4096 % 64, 0x80 + n / 64 % 64, 0x80 + n % 64]

/-- Characters that `encodeURIComponent` leaves alone: ASCII letters, digits and
`- _ . ! ~ * ( )` and the apostrophe. -/
def isUriUnreserved (c : Char) : Bool :=
  c.isAlphanum || "-_.!~*()".toList.contains c || c.toNat = 39

/-- The built-in `encodeURIComponent` on well-formed text. -/
def encodeURIComponent : Str → Str
  | [] => []
  | c :: cs =>
    (if isUriUnreserved c then [c]
     else (utf8Bytes c).flatMap fun b => ['%', hexDigit (b / 16), hexDigit (b % 16)])
      ++ encodeURIComponent cs

/-! ## Regular expressions -/

/-- The fragment of regular-expression syntax used by the script. -/
inductive Re where
  /-- literal text -/
  | lit : Str → Re
  /-- greedy `[class]*` -/
  | star : (Char → Bool) → Re
  /-- lazy `[class]*?` -/
  | lazyStar : (Char → Bool) → Re
  /-- concatenation -/
  | seq : Re → Re → Re
  /-- capture group -/
  | group : Re → Re

/-- Remainders after a greedy `[class]*`, longest consumption first. -/
def greedyRests (p : Char → Bool) : Str → List Str
  | [] => [[]]
  | c :: cs => if p c then greedyRests p cs ++ [c :: cs] else [c :: cs]

/-- Remainders after a lazy `[class]*?`, shortest consumption first. -/
def lazyRests (p : Char → Bool) : Str → List Str
  | [] => [[]]
  | c :: cs => (c :: cs) :: (if p c then lazyRests p cs else [])

/-- Backtracking matcher: all ways `re` matches a prefix of `inp`, in the priority order
of the ECMAScript matcher, each as (captures in order of their opening parenthesis,
remaining input). -/
def Re.run : Re → Str → List (List Str × Str)
  | .lit s, inp =>
    match dropLit s inp with
    | some r => [([], r)]
    | none => []
  | .star p, inp => (greedyRests p inp).map fun r => ([], r)
  | .lazyStar p, inp => (lazyRests p inp).map fun r => ([], r)
  | .seq a b, inp =>
    (a.run inp).flatMap fun x => (b.run x.2).map fun y => (x.1 ++ y.1, y.2)
  | .group a, inp =>
    (a.run inp).map fun x => (inp.take (inp.length - x.2.length) :: x.1, x.2)

/-- The match found at the start of `inp`, if any. -/
def Re.exec (re : Re) (inp : Str) : Option (List Str × Str) := (re.run inp).head?

/-- Leftmost match anywhere in the input: `String.prototype.match` without the `g` flag. -/
def Re.search (re : Re) : Str → Option (List Str × Str)
  | [] => re.exec []
  | c :: cs =>
    match re.exec (c :: cs) with
    | some m => some m
    | none => re.search cs

/-- A replacement template: literal text and `$n` references. -/
inductive Piece where
  | text : Str → Piece
  | cap : Nat → Piece

/-- Instantiate a replacement template with the captures of a match. -/
def expand (caps : List Str) : List Piece → Str
  | [] => []
  | .text s :: ps => s ++ expand caps ps
  | .cap n :: ps => caps.getD (n - 1) [] ++ expand caps ps

/-- Worker of `replaceAll`: `skip` characters of the last match are still to be passed. -/
def replaceAux (re : Re) (tpl : List Piece) : Nat → Str → Str
  | 0, [] =>
    match re.exec [] with
    | some (caps, _) => expand caps tpl
    | none => []
  | _ + 1, [] => []
  | skip + 1, _ :: cs => replaceAux re tpl skip cs
  | 0, c :: cs =>
    match re.exec (c :: cs) with
    | some (caps, r) =>
      if (c :: cs).length - r.length = 0 then
        expand caps tpl ++ c :: replaceAux re tpl 0 cs
      else expand caps tpl ++ replaceAux re tpl ((c :: cs).length - r.length - 1) cs
    | none => c :: replaceAux re tpl 0 cs

/-- Global replacement `s.replace(/re/g, tpl)`: scan left to right, replace each match
and resume after it (one character further after an empty match). -/
def replaceAll (re : Re) (tpl : List Piece) (inp : Str) : Str := replaceAux re tpl 0 inp

/-- The class `\s`: ECMAScript white space and line terminators. -/
def isJsSpace (c : Char) : Bool :=
  let n := c.toNat
  n = 0x09 || n = 0x0A || n = 0x0B || n = 0x0C || n = 0x0D || n = 0x20 || n = 0xA0
    || n = 0x1680 || (0x2000 ≤ n && n ≤ 0x200A) || n = 0x2028 || n = 0x2029
    || n = 0x202F || n = 0x205F || n = 0x3000 || n = 0xFEFF

/-! ## Constants of the script -/

/-- The constant `LIVE_SITE`. -/
def LIVE_SITE : Str := "https://www.qtes9gu0k.xyz".toList
/-- The constant `ALLORIGINS`. -/
def ALLORIGINS : Str := "https://api.allorigins.win/get?url=".toList

/-- The live-origin prefix matched by the first rewrite. -/
def liveOrigin : Str := "https://www.qtes9gu0k.xyz/".toList
/-- The mirror path prefix. -/
def mirrorPrefix : Str := "/20260212/".toList
/-- Literal `<script` of the step 2 pattern. -/
def scriptOpen : Str := "<script".toList
/-- Literal `app.bundle.js` of the step 2 pattern. -/
def bundleName : Str := "app.bundle.js".toList
/-- Literal `></script>` of the step 2 pattern. -/
def scriptClose : Str := "></script>".toList
/-- Literal `app.css` of the step 3 pattern. -/
def cssName : Str := "app.css".toList
/-- Literal `?ver=` of the step 3 pattern. -/
def verParam : Str := "?ver=".toList
/-- Literal of the step 4 pattern. -/
def itemClose : Str := "p-5djb21-result__item\">".toList
/-- Replacement text of step 4. -/
def itemLoaded : Str := "p-5djb21-result__item is-loaded\">".toList
/-- The marker the submit handler looks for with `indexOf`. -/
def itemMarker : Str := "p-5djb21-result__item".toList
/-- The anchor of the extraction pattern. -/
def resultAnchor : Str := "<div class=\"p-5djb21-result\">".toList
/-- Literal `</div>`. -/
def divClose : Str := "</div>".toList
/-- Literal `</main>`. -/
def mainClose : Str := "</main>".toList

/-- Pattern of step 1: `/https:\/\/www\.qtes9gu0k\.xyz\//`. -/
def reOrigin : Re := .lit liveOrigin

/-- Pattern of step 2: `/<script([^>]*app\.bundle\.js[^>]*)><\/script>/`. -/
def reScript : Re :=
  .seq (.lit scriptOpen)
    (.seq (.group (.seq (.star fun c => c != '>')
        (.seq (.lit bundleName) (.star fun c => c != '>'))))
      (.lit scriptClose))

/-- Pattern of step 3: `/(app\.css)\?ver=[^"]*"/`. -/
def reCssVer : Re :=
  .seq (.group (.lit cssName))
    (.seq (.lit verParam) (.seq (.star fun c => c != '"') (.lit ['"'])))

/-- Pattern of step 4: `/p-5djb21-result__item">/`. -/
def reItem : Re := .lit itemClose

/-- The tail of the extraction pattern: `/<\/div>\s*<\/div>\s*<\/div>\s*<\/main>/`. -/
def reTerminator : Re :=
  .seq (.lit divClose) (.seq (.star isJsSpace) (.seq (.lit divClose)
    (.seq (.star isJsSpace) (.seq (.lit divClose) (.seq (.star isJsSpace) (.lit mainClose))))))

/-- The extraction pattern:
`/<div class="p-5djb21-result">([\s\S]*?)<\/div>\s*<\/div>\s*<\/div>\s*<\/main>/`. -/
def reResult : Re :=
  .seq (.lit resultAnchor) (.seq (.group (.lazyStar fun _ => true)) reTerminator)

/-! ## Deactivation and extraction -/

/-- Step 1 of `deactivateHtml`: remote URLs to local paths. -/
def rewriteOrigin (html : Str) : Str := replaceAll reOrigin [.text mirrorPrefix] html

/-- Step 2 of `deactivateHtml`: comment out `app.bundle.js`. -/
def commentBundle (html : Str) : Str :=
  replaceAll reScript [.text "<!-- <script".toList, .cap 1, .text "></script> -->".toList] html

/-- Step 3 of `deactivateHtml`: strip `?ver=` from the CSS URL. -/
def stripCssVer (html : Str) : Str := replaceAll reCssVer [.cap 1, .text ['"']] html

/-- Step 4 of `deactivateHtml`: add the `is-loaded` class to result items. -/
def markLoaded (html : Str) : Str := replaceAll reItem [.text itemLoaded] html

/-- The function `deactivateHtml` of the script: its four replacements in order. -/
def deactivateHtml (html : Str) : Str :=
  markLoaded (stripCssVer (commentBundle (rewriteOrigin html)))

/-- The function `extractResultHtml` of the script. -/
def extractResultHtml (html : Str) : Option Str :=
  match reResult.search html with
  | some (caps, _) => some (resultAnchor ++ caps.getD 0 [] ++ divClose)
  | none => none

/-! ## Fetch abstraction -/

/-- The parts of `window.location` the script reads. -/
structure Location where
  protocol : Str
  hostname : Str

/-- The constant `IS_LOCAL`: the host name is `localhost` or `127.0.0.1`. -/
def IS_LOCAL (loc : Location) : Bool :=
  loc.hostname == "localhost".toList || loc.hostname == "127.0.0.1".toList

/-- The constant `PROXY_ORIGIN`: protocol, `//`, host name, `:8081`. -/
def PROXY_ORIGIN (loc : Location) : Str :=
  loc.protocol ++ "//".toList ++ loc.hostname ++ ":8081".toList

/-- The two transport modes of the specification; the script holds them as `IS_LOCAL`. -/
inductive Mode where
  | direct
  | relay
  deriving DecidableEq, Repr

/-- Mode resolution: Direct when `IS_LOCAL`, otherwise Relay. -/
def resolveMode (loc : Location) : Mode := if IS_LOCAL loc then .direct else .relay

/-- The parsed JSON body of a reply, with the fields the script reads: `ok`, `html` and
`error` of the companion API, `contents` of the relay.  An absent `ok` reads as `false`. -/
structure Data where
  ok : Bool := false
  html : Str := []
  error : Option Str := none
  contents : Option Str := none

/-- What `fetch(url).then(r => r.json())` settles to. -/
inductive Reply where
  /-- the request or the JSON parse failed with this message -/
  | failed : Str → Reply
  /-- the parsed body -/
  | json : Data → Reply

/-- The URL that `fetchFromLiveSite` requests in Direct mode (`proxyUrl`). -/
def proxyUrl (loc : Location) (url : Str) : Str :=
  if (indexOf "?s=".toList url).isSome then
    PROXY_ORIGIN loc ++ "/api/search?s=".toList ++ (splitOn "?s=".toList url).getD 1 []
  else
    PROXY_ORIGIN loc ++ "/api/page?path=".toList
      ++ encodeURIComponent (replaceFirst LIVE_SITE [] url)

/-- The URL that `fetchFromLiveSite` passes to `fetch`. -/
def requestUrl (loc : Location) (url : Str) : Str :=
  if IS_LOCAL loc then proxyUrl loc url else ALLORIGINS ++ encodeURIComponent url

/-- The function `fetchFromLiveSite` of the script: the value its promise settles to,
given the network oracle `net`. -/
def fetchFromLiveSite (loc : Location) (net : Str → Reply) (url : Str) : Except Str Str :=
  if IS_LOCAL loc then
    match net (proxyUrl loc url) with
    | .failed msg => .error msg
    | .json data =>
      if !data.ok then
        .error (match data.error with
          | some e => if e = [] then "proxy error".toList else e
          | none => "proxy error".toList)
      else .ok data.html
  else
    match net (ALLORIGINS ++ encodeURIComponent url) with
    | .failed msg => .error msg
    | .json data =>
      match data.contents with
      | none => .error "allorigins returned no contents".toList
      | some c =>
        if c = [] then .error "allorigins returned no contents".toList
        else .ok (deactivateHtml c)

/-! ## Keypad -/

/-- The loaded key map: own-property lookup of the parsed `key-map.json`. -/
abbrev KeyMap := Str → Option (Str → Option Str)

/-- The keypad state `mergeRadicals` reads and writes: the input field, the value of the
checked left and right radical (if any), and the submit button. -/
structure Keypad where
  inputValue : Str
  left : Option Str
  right : Option Str
  submitDisabled : Bool
  deriving DecidableEq

/-- The function `updateSubmitButton` of the script. -/
def updateSubmitButton (st : Keypad) : Keypad :=
  { st with submitDisabled := st.inputValue.length == 0 }

/-- The function `mergeRadicals` of the script; `KEY_MAP` is `none` while not loaded. -/
def mergeRadicals (KEY_MAP : Option KeyMap) (st : Keypad) : Keypad :=
  match st.left, st.right, KEY_MAP with
  | some lv, some rv, some km =>
    match km lv with
    | some row =>
      match row rv with
      | some unit =>
        if unit = [] then st
        else updateSubmitButton
          { st with inputValue := st.inputValue ++ unit, left := none, right := none }
      | none => st
    | none => st
  | _, _, _ => st

/-! ## Search form and results display -/

/-- The function `escapeHtml` of the script: the serialisation of a text node. -/
def escapeHtml : Str → Str
  | [] => []
  | c :: cs =>
    (if c = '&' then "&amp;".toList
     else if c = '<' then "&lt;".toList
     else if c = '>' then "&gt;".toList
     else if c.toNat = 0xA0 then "&nbsp;".toList
     else [c]) ++ escapeHtml cs

/-- The states of the search orchestrator. -/
inductive Phase where
  | idle
  | loading
  | renderedResults
  | renderedEmpty
  | renderedError
  deriving DecidableEq, Repr

/-- The result area: the branch that wrote it last and its `innerHTML`. -/
structure ResultArea where
  phase : Phase
  innerHTML : Str
  deriving DecidableEq

/-- The function `showLoading` of the script. -/
def showLoading (query : Str) : ResultArea :=
  { phase := .loading
    innerHTML := "<div class=\"p-5djb21-result\">".toList
      ++ "<div class=\"p-5djb21-result__announce\">".toList
      ++ "<p>\"".toList ++ escapeHtml query ++ "\" searching...</p>".toList
      ++ "</div></div>".toList }

/-- The function `showError` of the script. -/
def showError (msg : Str) : ResultArea :=
  { phase := .renderedError
    innerHTML :=
      "<div style=\"color:red; padding:1em; border:1px solid red; margin-top:1em;\">".toList
      ++ "<strong>Error:</strong> ".toList ++ escapeHtml msg ++ "</div>".toList }

/-- The function `showResults` of the script. -/
def showResults (resultHtml : Option Str) (hasResults : Bool) (query : Str) : ResultArea :=
  match hasResults, resultHtml with
  | true, some html =>
    if html = [] then
      { phase := .renderedEmpty
        innerHTML := "<div class=\"p-5djb21-result\">".toList
          ++ "<div class=\"p-5djb21-result__announce\">".toList
          ++ "<p>\"".toList ++ escapeHtml query ++ "\" - no results</p>".toList
          ++ "</div></div>".toList }
    else { phase := .renderedResults, innerHTML := html }
  | _, _ =>
    { phase := .renderedEmpty
      innerHTML := "<div class=\"p-5djb21-result\">".toList
        ++ "<div class=\"p-5djb21-result__announce\">".toList
        ++ "<p>\"".toList ++ escapeHtml query ++ "\" - no results</p>".toList
        ++ "</div></div>".toList }

/-- The submit handler of the search form: the result area once the request has settled
(`area` is the result area before the submission). -/
def submitHandler (loc : Location) (net : Str → Reply) (area : ResultArea) (query : Str) :
    ResultArea :=
  if query = [] then area
  else
    match fetchFromLiveSite loc net (LIVE_SITE ++ "/?s=".toList ++ encodeURIComponent query) with
    | .ok html =>
      let hasResults := (indexOf itemMarker html).isSome
      let resultHtml := if hasResults then extractResultHtml html else none
      showResults resultHtml hasResults query
    | .error msg =>
      showError ("Search error: ".toList ++ msg
        ++ (if IS_LOCAL loc then "\nsearch_proxy.py is running?".toList
            else "\nCORS proxy may be down.".toList))

/-! ## Page viewer -/

/-- Outcome of the `HEAD` probe of `openDeactivatedPage`. -/
inductive Probe where
  /-- a response with `r.ok` -/
  | ok
  /-- a response without `r.ok` -/
  | notOk
  /-- the request itself failed -/
  | networkError
  deriving DecidableEq

/-- The observable actions of `openDeactivatedPage`. -/
inductive Effect where
  /-- a call `window.open(url, "_blank")` -/
  | openWindow : Str → Effect
  /-- a call of `fetchFromLiveSite(url)` -/
  | retrieve : Str → Effect
  /-- a call `w.document.write(html)` into the new view -/
  | documentWrite : Str → Effect
  /-- a call `alert(msg)` -/
  | alert : Str → Effect
  deriving DecidableEq

/-- The function `openDeactivatedPage` of the script, as the sequence of its actions. -/
def openDeactivatedPage (loc : Location) (net : Str → Reply) (probe : Probe)
    (localHref : Str) : List Effect :=
  match probe with
  | .ok => [.openWindow localHref]
  | _ =>
    let livePath := replaceFirst mirrorPrefix "/".toList localHref
    let liveUrl := LIVE_SITE ++ livePath
    .retrieve liveUrl ::
      (match fetchFromLiveSite loc net liveUrl with
       | .ok html => [.openWindow [], .documentWrite html]
       | .error msg => [.alert ("Failed to fetch page: ".toList ++ msg)])

/-! ## Specification-side notions -/

/-- A decimal octet `0`..`255`. -/
def isDecimalOctet (s : Str) : Bool :=
  !s.isEmpty && s.all Char.isDigit && decide (s.length ≤ 3)
    && decide (s.foldl (fun n c => 10 * n + (c.toNat - 48)) 0 ≤ 255)

/-- The specification's "loopback address", read as a host name: the name `localhost`,
the IPv6 literal `[::1]`, or a dotted IPv4 literal in `127.0.0.0/8`. -/
def isLoopbackHost (h : Str) : Bool :=
  h == "localhost".toList || h == "[::1]".toList ||
    (match splitOn ['.'] h with
     | [a, b, c, d] =>
       a == "127".toList && isDecimalOctet b && isDecimalOctet c && isDecimalOctet d
     | _ => false)

/-- The pieces `gs` written one after the other with `sep` between neighbours. -/
def joinWith (sep : Str) : List Str → Str
  | [] => []
  | [g] => g
  | g :: g2 :: gs => g ++ sep ++ joinWith sep (g2 :: gs)

/-- The URLs with which a run of `openDeactivatedPage` called `fetchFromLiveSite`. -/
def retrieveCalls : List Effect → List Str
  | [] => []
  | .retrieve url :: es => url :: retrieveCalls es
  | _ :: es => retrieveCalls es

/-! ## The four target patterns, as occurrences in a text -/

/-- The text contains the live-origin prefix `https://www.qtes9gu0k.xyz/`. -/
def HasLiveOrigin (x : Str) : Prop := liveOrigin <:+: x

/-- The text contains an empty-bodied script tag whose attributes mention
`app.bundle.js`: `<script`, attributes without `>`, then `></script>`. -/
def HasBundleScript (x : Str) : Prop :=
  ∃ pre attrs post, x = pre ++ scriptOpen ++ attrs ++ scriptClose ++ post ∧
    (∀ c ∈ attrs, c ≠ '>') ∧ bundleName <:+: attrs

/-- The text contains `app.css?ver=` followed, anywhere later, by a double quote. -/
def HasCssVer (x : Str) : Prop :=
  ∃ pre v post, x = pre ++ "app.css?ver=".toList ++ v ++ '"' :: post

/-- The text contains `p-5djb21-result__item">`. -/
def HasItemClose (x : Str) : Prop := itemClose <:+: x

/-! ## The extraction pattern, as occurrences in a text -/

/-- The text starts with a terminator: `</div>`, `</div>`, `</div>`, `</main>`,
separated only by white space. -/
def StartsWithTerminator (s : Str) : Prop :=
  ∃ w1 w2 w3 r, s = divClose ++ w1 ++ divClose ++ w2 ++ divClose ++ w3 ++ mainClose ++ r ∧
    (∀ c ∈ w1, isJsSpace c = true) ∧ (∀ c ∈ w2, isJsSpace c = true) ∧
    (∀ c ∈ w3, isJsSpace c = true)

/-- The text from the start of `s` up to the first terminator, and the text after that
terminator. -/
def firstTerm : Str → Option (Str × Str)
  | [] =>
    match reTerminator.exec [] with
    | some x => some ([], x.2)
    | none => none
  | c :: cs =>
    match reTerminator.exec (c :: cs) with
    | some x => some ([], x.2)
    | none => (firstTerm cs).map fun y => (c :: y.1, y.2)

/-! ## Notions used in the proofs -/

/-- Every match of `re` consumes at least one character. -/
def Progress (re : Re) : Prop :=
  ∀ inp caps r, re.exec inp = some (caps, r) → ∃ m, m ≠ [] ∧ inp = m ++ r

/-- No position of `l` starts a match of `re`. -/
def NoHit (re : Re) (l : Str) : Prop := ∀ k, re.exec (l.drop k) = none

/-- The texts `q` and `u` agree on their common length. -/
def agree : Str → Str → Bool
  | [], _ => true
  | _, [] => true
  | a :: as, b :: bs => a == b && agree as bs

/-- The literal part `app.css?ver=` of the third pattern. -/
def cssLit : Str := cssName ++ verParam

/-- The matches of `([\s\S]*?)` followed by the terminator, when the group started
`pre` characters before `s`. -/
def lazyThenTerm (pre s : Str) : List (List Str × Str) :=
  ((lazyRests (fun _ => true) s).map fun r =>
      (([(pre ++ s).take ((pre ++ s).length - r.length)] : List Str), r)).flatMap
    fun x => (reTerminator.run x.2).map fun y => (x.1 ++ y.1, y.2)

/-! ## The matcher: membership lemmas -/

theorem dropLit_eq_some_iff (p inp r : Str) : dropLit p inp = some r ↔ inp = p ++ r := by
  induction p generalizing inp with
  | nil => simp [dropLit, eq_comm]
  | cons a p ih =>
    cases inp with
    | nil => simp [dropLit]
    | cons c cs =>
      by_cases h : a = c
      · subst h; simp [dropLit, ih]
      · simp only [dropLit, if_neg h, List.cons_append, List.cons.injEq]
        constructor
        · intro h1; cases h1
        · rintro ⟨h1, -⟩; exact absurd h1.symm h

theorem dropLit_append (p r : Str) : dropLit p (p ++ r) = some r :=
  (dropLit_eq_some_iff p (p ++ r) r).2 rfl

theorem dropLit_eq_none_iff (p inp : Str) : dropLit p inp = none ↔ ¬ p <+: inp := by
  constructor
  · rintro h ⟨r, rfl⟩
    rw [dropLit_append] at h; cases h
  · intro h
    cases hd : dropLit p inp with
    | none => rfl
    | some r => exact absurd ⟨r, ((dropLit_eq_some_iff p inp r).1 hd).symm⟩ h

theorem mem_greedyRests (p : Char → Bool) (inp r : Str) :
    r ∈ greedyRests p inp ↔ ∃ m, inp = m ++ r ∧ ∀ c ∈ m, p c = true := by
  induction inp with
  | nil =>
    simp only [greedyRests, List.mem_singleton]
    constructor
    · rintro rfl; exact ⟨[], rfl, by simp⟩
    · rintro ⟨m, hm, -⟩
      have := List.append_eq_nil.1 hm.symm
      exact this.2
  | cons c cs ih =>
    by_cases hp : p c = true
    · simp only [greedyRests, hp, if_true, List.mem_append, List.mem_singleton, ih]
      constructor
      · rintro (⟨m, hm, hall⟩ | rfl)
        · refine ⟨c :: m, by simp [hm], ?_⟩
          intro d hd
          rcases List.mem_cons.1 hd with rfl | hd
          · exact hp
          · exact hall d hd
        · exact ⟨[], rfl, by simp⟩
      · rintro ⟨m, hm, hall⟩
        cases m with
        | nil => right; simpa using hm.symm
        | cons d m =>
          left
          simp only [List.cons_append, List.cons.injEq] at hm
          exact ⟨m, hm.2, fun e he => hall e (List.mem_cons_of_mem _ he)⟩
    · rw [greedyRests, if_neg hp, List.mem_singleton]
      constructor
      · rintro rfl; exact ⟨[], rfl, by simp⟩
      · rintro ⟨m, hm, hall⟩
        cases m with
        | nil => simpa using hm.symm
        | cons d m =>
          simp only [List.cons_append, List.cons.injEq] at hm
          exact absurd (hm.1 ▸ hall d (List.mem_cons_self _ _)) hp

theorem mem_lazyRests (p : Char → Bool) (inp r : Str) :
    r ∈ lazyRests p inp ↔ ∃ m, inp = m ++ r ∧ ∀ c ∈ m, p c = true := by
  induction inp with
  | nil =>
    simp only [lazyRests, List.mem_singleton]
    constructor
    · rintro rfl; exact ⟨[], rfl, by simp⟩
    · rintro ⟨m, hm, -⟩
      exact (List.append_eq_nil.1 hm.symm).2
  | cons c cs ih =>
    simp only [lazyRests, List.mem_cons]
    constructor
    · rintro (rfl | h)
      · exact ⟨[], rfl, by simp⟩
      · by_cases hp : p c = true
        · rw [if_pos hp, ih] at h
          obtain ⟨m, hm, hall⟩ := h
          refine ⟨c :: m, by simp [hm], ?_⟩
          intro d hd
          rcases List.mem_cons.1 hd with rfl | hd
          · exact hp
          · exact hall d hd
        · rw [if_neg hp] at h; cases h
    · rintro ⟨m, hm, hall⟩
      cases m with
      | nil => left; simpa using hm.symm
      | cons d m =>
        right
        simp only [List.cons_append, List.cons.injEq] at hm
        have hp : p c = true := hm.1 ▸ hall d (List.mem_cons_self _ _)
        rw [if_pos hp, ih]
        exact ⟨m, hm.2, fun e he => hall e (List.mem_cons_of_mem _ he)⟩

theorem mem_run_lit (s inp : Str) (x : List Str × Str) :
    x ∈ (Re.lit s).run inp ↔ x.1 = [] ∧ inp = s ++ x.2 := by
  obtain ⟨caps, r⟩ := x
  simp only [Re.run]
  cases hd : dropLit s inp with
  | none =>
    simp only [List.not_mem_nil, false_iff, not_and]
    intro _ h
    rw [h, dropLit_append] at hd; cases hd
  | some r1 =>
    have h1 := (dropLit_eq_some_iff s inp r1).1 hd
    simp only [List.mem_singleton, Prod.mk.injEq]
    constructor
    · rintro ⟨rfl, rfl⟩; exact ⟨rfl, h1⟩
    · rintro ⟨rfl, h2⟩
      refine ⟨rfl, ?_⟩
      rw [h1] at h2
      exact (List.append_cancel_left h2).symm

theorem mem_run_star (p : Char → Bool) (inp : Str) (x : List Str × Str) :
    x ∈ (Re.star p).run inp ↔ x.1 = [] ∧ ∃ m, inp = m ++ x.2 ∧ ∀ c ∈ m, p c = true := by
  obtain ⟨caps, r⟩ := x
  simp only [Re.run, List.mem_map, Prod.mk.injEq]
  constructor
  · rintro ⟨r1, h1, rfl, rfl⟩
    exact ⟨rfl, (mem_greedyRests p inp r1).1 h1⟩
  · rintro ⟨rfl, h⟩
    exact ⟨r, (mem_greedyRests p inp r).2 h, rfl, rfl⟩

theorem mem_run_lazyStar (p : Char → Bool) (inp : Str) (x : List Str × Str) :
    x ∈ (Re.lazyStar p).run inp ↔ x.1 = [] ∧ ∃ m, inp = m ++ x.2 ∧ ∀ c ∈ m, p c = true := by
  obtain ⟨caps, r⟩ := x
  simp only [Re.run, List.mem_map, Prod.mk.injEq]
  constructor
  · rintro ⟨r1, h1, rfl, rfl⟩
    exact ⟨rfl, (mem_lazyRests p inp r1).1 h1⟩
  · rintro ⟨rfl, h⟩
    exact ⟨r, (mem_lazyRests p inp r).2 h, rfl, rfl⟩

theorem mem_run_seq (a b : Re) (inp : Str) (x : List Str × Str) :
    x ∈ (Re.seq a b).run inp ↔
      ∃ y ∈ a.run inp, ∃ z ∈ b.run y.2, x = (y.1 ++ z.1, z.2) := by
  simp only [Re.run, List.mem_flatMap, List.mem_map]
  constructor
  · rintro ⟨y, hy, z, hz, rfl⟩; exact ⟨y, hy, z, hz, rfl⟩
  · rintro ⟨y, hy, z, hz, rfl⟩; exact ⟨y, hy, z, hz, rfl⟩

theorem mem_run_group (a : Re) (inp : Str) (x : List Str × Str) :
    x ∈ (Re.group a).run inp ↔
      ∃ y ∈ a.run inp, x = (inp.take (inp.length - y.2.length) :: y.1, y.2) := by
  simp only [Re.run, List.mem_map]
  constructor
  · rintro ⟨y, hy, rfl⟩; exact ⟨y, hy, rfl⟩
  · rintro ⟨y, hy, rfl⟩; exact ⟨y, hy, rfl⟩

theorem exec_mem {re : Re} {inp : Str} {x : List Str × Str} (h : re.exec inp = some x) :
    x ∈ re.run inp := by
  unfold Re.exec at h
  exact List.mem_of_mem_head? h

theorem exec_isSome_of_mem {re : Re} {inp : Str} {x : List Str × Str} (h : x ∈ re.run inp) :
    (re.exec inp).isSome = true := by
  unfold Re.exec
  cases hr : re.run inp with
  | nil => rw [hr] at h; cases h
  | cons a l => rfl

theorem exec_eq_none_iff (re : Re) (inp : Str) :
    re.exec inp = none ↔ ∀ x, x ∉ re.run inp := by
  unfold Re.exec
  cases hr : re.run inp with
  | nil => simp
  | cons a l =>
    constructor
    · intro h; cases h
    · intro h; exact absurd (List.mem_cons_self a l) (h a)

/-! ## Global replacement: unfolding and induction -/

theorem Progress.exec_nil {re : Re} (hp : Progress re) : re.exec [] = none := by
  cases h : re.exec [] with
  | none => rfl
  | some x =>
    obtain ⟨m, hm, he⟩ := hp [] x.1 x.2 h
    exact absurd (List.append_eq_nil.1 he.symm).1 hm

theorem replaceAux_skip (re : Re) (tpl : List Piece) :
    ∀ (l : Str) (n : Nat), n ≤ l.length →
      replaceAux re tpl n l = replaceAux re tpl 0 (l.drop n) := by
  intro l
  induction l with
  | nil =>
    intro n hn
    have : n = 0 := by simpa using hn
    subst this; rfl
  | cons c cs ih =>
    intro n hn
    cases n with
    | zero => rfl
    | succ n =>
      have hn1 : n ≤ cs.length := by simpa using hn
      rw [List.drop_succ_cons, ← ih n hn1]
      rfl

theorem replaceAll_nil {re : Re} (tpl : List Piece) (h : re.exec [] = none) :
    replaceAll re tpl [] = [] := by
  simp [replaceAll, replaceAux, h]

theorem replaceAll_cons_none {re : Re} (tpl : List Piece) {c : Char} {cs : Str}
    (h : re.exec (c :: cs) = none) :
    replaceAll re tpl (c :: cs) = c :: replaceAll re tpl cs := by
  simp [replaceAll, replaceAux, h]

theorem replaceAll_hit {re : Re} (tpl : List Piece) {m r : Str} {caps : List Str}
    (hm : m ≠ []) (h : re.exec (m ++ r) = some (caps, r)) :
    replaceAll re tpl (m ++ r) = expand caps tpl ++ replaceAll re tpl r := by
  cases m with
  | nil => exact absurd rfl hm
  | cons c m =>
    have hlen : (c :: (m ++ r)).length - r.length = m.length + 1 := by
      simp only [List.length_cons, List.length_append]; omega
    have h1 : re.exec (c :: (m ++ r)) = some (caps, r) := h
    unfold replaceAll
    rw [List.cons_append, replaceAux, h1]
    simp only [hlen, Nat.add_one_ne_zero, if_false, Nat.add_sub_cancel]
    rw [replaceAux_skip re tpl (m ++ r) m.length (by simp), List.drop_left]

theorem replace_induction {re : Re} (hp : Progress re) {motive : Str → Prop}
    (nil : motive [])
    (skip : ∀ c cs, re.exec (c :: cs) = none → motive cs → motive (c :: cs))
    (hit : ∀ m r caps, m ≠ [] → re.exec (m ++ r) = some (caps, r) → motive r →
      motive (m ++ r)) :
    ∀ l, motive l := by
  suffices h : ∀ n (l : Str), l.length = n → motive l from fun l => h _ l rfl
  intro n
  induction n using Nat.strong_induction_on with
  | _ n ih =>
    intro l hn
    cases l with
    | nil => exact nil
    | cons c cs =>
      cases he : re.exec (c :: cs) with
      | none =>
        exact skip c cs he (ih cs.length (by rw [← hn]; simp) cs rfl)
      | some x =>
        obtain ⟨caps, r⟩ := x
        obtain ⟨m, hm, hmr⟩ := hp _ _ _ he
        rw [hmr] at he ⊢
        refine hit m r caps hm he (ih r.length ?_ r rfl)
        rw [← hn, hmr, List.length_append]
        have : 0 < m.length := List.length_pos.2 hm
        omega

theorem NoHit.tail {re : Re} {c : Char} {cs : Str} (h : NoHit re (c :: cs)) : NoHit re cs :=
  fun k => h (k + 1)

theorem replaceAll_of_noHit {re : Re} (tpl : List Piece) :
    ∀ l, NoHit re l → replaceAll re tpl l = l := by
  intro l
  induction l with
  | nil => intro h; exact replaceAll_nil tpl (h 0)
  | cons c cs ih =>
    intro h
    rw [replaceAll_cons_none tpl (h 0), ih h.tail]

theorem noHit_cons {re : Re} {c : Char} {cs : Str} (h0 : re.exec (c :: cs) = none)
    (h : NoHit re cs) : NoHit re (c :: cs) := by
  intro k
  cases k with
  | zero => exact h0
  | succ k => exact h k

theorem noHit_of_split {re : Re} {l : Str}
    (h : ∀ pre suf, l = pre ++ suf → re.exec suf = none) : NoHit re l :=
  fun k => h (l.take k) (l.drop k) (List.take_append_drop k l).symm

/-! ## The shape of the matches of each pattern -/

theorem take_length_sub (m r : Str) : (m ++ r).take ((m ++ r).length - r.length) = m := by
  simp

theorem exec_lit_eq_some (s inp : Str) (caps : List Str) (r : Str) :
    (Re.lit s).exec inp = some (caps, r) ↔ caps = [] ∧ inp = s ++ r := by
  constructor
  · intro h
    exact (mem_run_lit s inp (caps, r)).1 (exec_mem h)
  · rintro ⟨rfl, rfl⟩
    simp [Re.exec, Re.run, dropLit_append]

theorem exec_lit_eq_none (s inp : Str) : (Re.lit s).exec inp = none ↔ ¬ s <+: inp := by
  rw [← dropLit_eq_none_iff]
  unfold Re.exec Re.run
  cases dropLit s inp <;> simp

theorem progress_lit {s : Str} (hs : s ≠ []) : Progress (.lit s) := by
  intro inp caps r h
  exact ⟨s, hs, ((exec_lit_eq_some s inp caps r).1 h).2⟩

theorem mem_run_reScript {inp : Str} {x : List Str × Str} (h : x ∈ reScript.run inp) :
    ∃ attrs, inp = scriptOpen ++ attrs ++ scriptClose ++ x.2 ∧ (∀ c ∈ attrs, c ≠ '>') ∧
      bundleName <:+: attrs ∧ x.1 = [attrs] := by
  rw [reScript, mem_run_seq] at h
  obtain ⟨y, hy, z, hz, rfl⟩ := h
  rw [mem_run_lit] at hy
  rw [mem_run_seq] at hz
  obtain ⟨u, hu, v, hv, rfl⟩ := hz
  rw [mem_run_group] at hu
  obtain ⟨w, hw, rfl⟩ := hu
  rw [mem_run_seq] at hw
  obtain ⟨a, ha, b, hb, rfl⟩ := hw
  rw [mem_run_star] at ha
  rw [mem_run_seq] at hb
  obtain ⟨c, hc, d, hd, rfl⟩ := hb
  rw [mem_run_lit] at hc hv
  rw [mem_run_star] at hd
  obtain ⟨hy1, hy2⟩ := hy
  obtain ⟨ha1, m1, ha2, ha3⟩ := ha
  obtain ⟨hc1, hc2⟩ := hc
  obtain ⟨hd1, m2, hd2, hd3⟩ := hd
  obtain ⟨hv1, hv2⟩ := hv
  simp only at hv2 hd2 hc2 ha2 hy2 ⊢
  have hy3 : y.2 = (m1 ++ bundleName ++ m2) ++ d.2 := by
    rw [ha2, hc2, hd2]; simp
  refine ⟨m1 ++ bundleName ++ m2, ?_, ?_, ?_, ?_⟩
  · rw [hy2, hy3, hv2]; simp
  · intro e he
    simp only [List.mem_append] at he
    rcases he with (he | he) | he
    · simpa using ha3 e he
    · intro h; subst h; revert he; decide
    · simpa using hd3 e he
  · exact ⟨m1, m2, rfl⟩
  · rw [hy1, ha1, hc1, hd1, hv1, hy3, take_length_sub]
    simp

theorem progress_reScript : Progress reScript := by
  intro inp caps r h
  obtain ⟨attrs, h1, -⟩ := mem_run_reScript (exec_mem h)
  refine ⟨scriptOpen ++ attrs ++ scriptClose, ?_, h1⟩
  simp [scriptOpen]

theorem mem_run_reCssVer (inp : Str) (x : List Str × Str) :
    x ∈ reCssVer.run inp ↔
      x.1 = [cssName] ∧
        ∃ q, inp = cssName ++ verParam ++ q ++ '"' :: x.2 ∧ ∀ c ∈ q, c ≠ '"' := by
  constructor
  · intro h
    rw [reCssVer, mem_run_seq] at h
    obtain ⟨y, hy, z, hz, rfl⟩ := h
    rw [mem_run_group] at hy
    obtain ⟨w, hw, rfl⟩ := hy
    rw [mem_run_lit] at hw
    rw [mem_run_seq] at hz
    obtain ⟨a, ha, b, hb, rfl⟩ := hz
    rw [mem_run_lit] at ha
    rw [mem_run_seq] at hb
    obtain ⟨c, hc, d, hd, rfl⟩ := hb
    rw [mem_run_star] at hc
    rw [mem_run_lit] at hd
    obtain ⟨hw1, hw2⟩ := hw
    obtain ⟨ha1, ha2⟩ := ha
    obtain ⟨hc1, q, hc2, hc3⟩ := hc
    obtain ⟨hd1, hd2⟩ := hd
    simp only at ha2 hc2 hd2 ⊢
    refine ⟨?_, q, ?_, ?_⟩
    · rw [hw1, ha1, hc1, hd1, hw2]; simp
    · rw [hw2, ha2, hc2, hd2]; simp
    · intro e he; simpa using hc3 e he
  · rintro ⟨h1, q, h2, h3⟩
    obtain ⟨caps, r⟩ := x
    simp only at h1 h2
    subst h1
    rw [reCssVer, mem_run_seq]
    refine ⟨([cssName], verParam ++ q ++ '"' :: r), ?_, ?_⟩
    · rw [mem_run_group]
      refine ⟨([], verParam ++ q ++ '"' :: r), ?_, ?_⟩
      · rw [mem_run_lit]; exact ⟨rfl, by rw [h2]; simp⟩
      · rw [h2]; simp
    · refine ⟨([], r), ?_, by simp⟩
      rw [mem_run_seq]
      refine ⟨([], q ++ '"' :: r), ?_, ([], r), ?_, by simp⟩
      · rw [mem_run_lit]; exact ⟨rfl, by simp⟩
      · rw [mem_run_seq]
        refine ⟨([], '"' :: r), ?_, ([], r), ?_, by simp⟩
        · rw [mem_run_star]
          exact ⟨rfl, q, rfl, fun e he => by simpa using h3 e he⟩
        · rw [mem_run_lit]; exact ⟨rfl, rfl⟩

theorem progress_reCssVer : Progress reCssVer := by
  intro inp caps r h
  obtain ⟨-, q, h1, -⟩ := (mem_run_reCssVer inp (caps, r)).1 (exec_mem h)
  refine ⟨cssName ++ verParam ++ q ++ ['"'], ?_, by rw [h1]; simp⟩
  simp [cssName]

/-! ## Absence of matches, in terms of occurrences -/

theorem noHit_lit_iff (s x : Str) : NoHit (.lit s) x ↔ ¬ s <:+: x := by
  constructor
  · rintro h ⟨pre, post, rfl⟩
    have := h pre.length
    rw [exec_lit_eq_none] at this
    apply this
    refine ⟨post, ?_⟩
    simp
  · intro h k
    rw [exec_lit_eq_none]
    intro hpre
    exact h (hpre.isInfix.trans (List.drop_suffix k x).isInfix)

theorem noHit_reScript {x : Str} (h : ¬ HasBundleScript x) : NoHit reScript x := by
  apply noHit_of_split
  intro pre suf hx
  cases he : reScript.exec suf with
  | none => rfl
  | some m =>
    obtain ⟨attrs, h1, h2, h3, -⟩ := mem_run_reScript (exec_mem he)
    exact absurd ⟨pre, attrs, m.2, by rw [hx, h1]; simp, h2, h3⟩ h

theorem noHit_reCssVer {x : Str} (h : ¬ HasCssVer x) : NoHit reCssVer x := by
  apply noHit_of_split
  intro pre suf hx
  cases he : reCssVer.exec suf with
  | none => rfl
  | some m =>
    obtain ⟨-, q, h1, -⟩ := (mem_run_reCssVer suf m).1 (exec_mem he)
    refine absurd ⟨pre, q, m.2, ?_⟩ h
    rw [hx, h1]
    simp [cssName, verParam]

/-! ## Occurrences of a literal across a boundary -/

theorem agree_of_starts {q : Str} : ∀ {u t : Str}, q <+: u ++ t → agree q u = true := by
  induction q with
  | nil => intro u t _; cases u <;> rfl
  | cons a q ih =>
    intro u t h
    cases u with
    | nil => rfl
    | cons b u =>
      rw [List.cons_append, List.cons_prefix_cons] at h
      simp only [agree, Bool.and_eq_true, beq_iff_eq]
      exact ⟨h.1, ih h.2⟩

theorem prefix_append_cases {q a b : Str} (h : q <+: a ++ b) :
    q <+: a ∨ ∃ q1, q1 ≠ [] ∧ q = a ++ q1 ∧ q1 <+: b := by
  rcases List.prefix_or_prefix_of_prefix h (List.prefix_append a b) with h1 | h1
  · exact Or.inl h1
  · obtain ⟨q1, rfl⟩ := h1
    by_cases hq : q1 = []
    · subst hq; left; simp
    · exact Or.inr ⟨q1, hq, rfl, (List.prefix_append_right_inj a).1 h⟩

theorem prefix_sep {q a b : Str} {c : Char} (h : q <+: a ++ c :: b) (hc : c ∉ q) :
    q <+: a := by
  rcases prefix_append_cases h with h1 | ⟨q1, hq1, rfl, h2⟩
  · exact h1
  · exfalso
    cases q1 with
    | nil => exact hq1 rfl
    | cons d q1 =>
      rw [List.cons_prefix_cons] at h2
      exact hc (by simp [h2.1])

theorem infix_sep {q : Str} {c : Char} (hc : c ∉ q) :
    ∀ {a b : Str}, q <:+: a ++ c :: b → q <:+: a ∨ q <:+: b := by
  intro a
  induction a with
  | nil =>
    intro b h
    rw [List.nil_append, List.infix_cons_iff] at h
    rcases h with h | h
    · left
      have := prefix_sep (a := []) (by simpa using h) hc
      exact this.isInfix
    · exact Or.inr h
  | cons d a ih =>
    intro b h
    rw [List.cons_append, List.infix_cons_iff] at h
    rcases h with h | h
    · left
      exact (prefix_sep (a := d :: a) (by simpa using h) hc).isInfix
    · rcases ih h with h1 | h1
      · exact Or.inl (h1.trans (List.suffix_cons d a).isInfix)
      · exact Or.inr h1

/-! ## A replacement step neither creates nor keeps matches -/

/-- A property of texts that a single replacement in context cannot create is not
created by the global replacement either. -/
theorem replaceAll_reflects {re : Re} (tpl : List Piece) (hp : Progress re)
    (Φ : Str → Prop)
    (H : ∀ m r caps, m ≠ [] → re.exec (m ++ r) = some (caps, r) →
      ∀ g, Φ (g ++ (expand caps tpl ++ r)) → Φ (g ++ (m ++ r))) :
    ∀ v g, Φ (g ++ replaceAll re tpl v) → Φ (g ++ v) := by
  intro v
  induction v using replace_induction hp with
  | nil => intro g h; rwa [replaceAll_nil tpl hp.exec_nil] at h
  | skip c cs hc ih =>
    intro g h
    rw [replaceAll_cons_none tpl hc] at h
    have h1 : Φ ((g ++ [c]) ++ replaceAll re tpl cs) := by simpa using h
    simpa using ih (g ++ [c]) h1
  | hit m r caps hm he ih =>
    intro g h
    rw [replaceAll_hit tpl hm he] at h
    have h1 : Φ ((g ++ expand caps tpl) ++ replaceAll re tpl r) := by simpa using h
    have h2 := ih (g ++ expand caps tpl) h1
    exact H m r caps hm he g (by simpa using h2)

theorem replaceAll_hit_reflects {re : Re} (tpl : List Piece) (hp : Progress re)
    (Inv : Str → Prop)
    (HA : ∀ m r caps, m ≠ [] → re.exec (m ++ r) = some (caps, r) →
      ∀ g t, Inv (g ++ (m ++ r)) → (re.exec (g ++ (expand caps tpl ++ t))).isSome = true →
        (re.exec (g ++ (m ++ r))).isSome = true) :
    ∀ u g, Inv (g ++ u) → (re.exec (g ++ replaceAll re tpl u)).isSome = true →
      (re.exec (g ++ u)).isSome = true := by
  intro u
  induction u using replace_induction hp with
  | nil => intro g _ h; rwa [replaceAll_nil tpl hp.exec_nil] at h
  | skip c cs hc ih =>
    intro g hi h
    rw [replaceAll_cons_none tpl hc] at h
    have h1 : (re.exec ((g ++ [c]) ++ replaceAll re tpl cs)).isSome = true := by
      simpa using h
    simpa using ih (g ++ [c]) (by simpa using hi) h1
  | hit m r caps hm he ih =>
    intro g hi h
    rw [replaceAll_hit tpl hm he] at h
    exact HA m r caps hm he g _ hi h

/-- After a global replacement no match of the pattern is left, provided a replacement
in context does not complete a match to its left (`HA`) and no match starts inside a
replacement text (`HB`). -/
theorem noHit_replaceAll {re : Re} (tpl : List Piece) (hp : Progress re)
    (Inv : Str → Prop) (hInv : ∀ g v, Inv (g ++ v) → Inv v)
    (HA : ∀ m r caps, m ≠ [] → re.exec (m ++ r) = some (caps, r) →
      ∀ g t, Inv (g ++ (m ++ r)) → (re.exec (g ++ (expand caps tpl ++ t))).isSome = true →
        (re.exec (g ++ (m ++ r))).isSome = true)
    (HB : ∀ m r caps, m ≠ [] → re.exec (m ++ r) = some (caps, r) →
      ∀ k t, k < (expand caps tpl).length →
        re.exec ((expand caps tpl).drop k ++ t) = none) :
    ∀ w, Inv w → NoHit re (replaceAll re tpl w) := by
  intro w
  induction w using replace_induction hp with
  | nil =>
    intro _ k
    rw [replaceAll_nil tpl hp.exec_nil, List.drop_nil]
    exact hp.exec_nil
  | skip c cs hc ih =>
    intro hi
    rw [replaceAll_cons_none tpl hc]
    refine noHit_cons ?_ (ih (hInv [c] cs hi))
    cases h : re.exec (c :: replaceAll re tpl cs) with
    | none => rfl
    | some x =>
      have h1 := replaceAll_hit_reflects tpl hp Inv HA cs [c] hi (by
        rw [List.singleton_append, h]; rfl)
      rw [List.singleton_append, hc] at h1
      cases h1
  | hit m r caps hm he ih =>
    intro hi k
    rw [replaceAll_hit tpl hm he]
    by_cases hk : k < (expand caps tpl).length
    · rw [List.drop_append_of_le_length (Nat.le_of_lt hk)]
      exact HB m r caps hm he k _ hk
    · have hk1 : (expand caps tpl).length ≤ k := Nat.le_of_not_lt hk
      obtain ⟨j, rfl⟩ := Nat.exists_eq_add_of_le hk1
      rw [List.drop_append]
      exact ih (hInv m r hi) j

/-! ## Step 3 leaves no `app.css?ver=` match -/

theorem exec_reCssVer_isSome_iff (v : Str) :
    (reCssVer.exec v).isSome = true ↔ cssLit <+: v ∧ '"' ∈ v := by
  constructor
  · intro h
    cases he : reCssVer.exec v with
    | none => rw [he] at h; cases h
    | some x =>
      obtain ⟨-, q, h1, -⟩ := (mem_run_reCssVer v x).1 (exec_mem he)
      rw [h1]
      exact ⟨⟨q ++ '"' :: x.2, by simp [cssLit]⟩, by simp⟩
  · rintro ⟨⟨suf, rfl⟩, hq⟩
    have hq1 : '"' ∈ suf := by
      rcases List.mem_append.1 hq with h | h
      · exact absurd h (by decide)
      · exact h
    obtain ⟨q, r, rfl, hnq⟩ := List.eq_append_cons_of_mem hq1
    refine exec_isSome_of_mem (x := ([cssName], r)) ?_
    rw [mem_run_reCssVer]
    refine ⟨rfl, q, by simp [cssLit], ?_⟩
    intro c hc hcq
    exact hnq (hcq ▸ hc)

theorem hasCssVer_iff (w : Str) :
    HasCssVer w ↔ ∃ k, cssLit <+: w.drop k ∧ '"' ∈ w.drop k := by
  constructor
  · rintro ⟨pre, v, post, rfl⟩
    refine ⟨pre.length, ?_⟩
    have : List.drop pre.length (pre ++ "app.css?ver=".toList ++ v ++ '"' :: post)
        = cssLit ++ (v ++ '"' :: post) := by
      rw [List.append_assoc, List.append_assoc, List.drop_left]; rfl
    rw [this]
    exact ⟨List.prefix_append _ _, by simp⟩
  · rintro ⟨k, ⟨suf, hs⟩, hq⟩
    have hq1 : '"' ∈ suf := by
      rw [← hs] at hq
      rcases List.mem_append.1 hq with h | h
      · exact absurd h (by decide)
      · exact h
    obtain ⟨v, post, rfl⟩ := List.append_of_mem hq1
    refine ⟨w.take k, v, post, ?_⟩
    have h1 : w = w.take k ++ w.drop k := (List.take_append_drop k w).symm
    rw [← hs] at h1
    exact h1.trans (by simp [cssLit, cssName, verParam])

theorem noHit_reCssVer_iff (v : Str) : NoHit reCssVer v ↔ ¬ HasCssVer v := by
  constructor
  · intro h hc
    obtain ⟨k, hk⟩ := (hasCssVer_iff v).1 hc
    have := (exec_reCssVer_isSome_iff _).2 hk
    rw [h k] at this
    cases this
  · exact noHit_reCssVer

theorem hasCssVer_of_suffix {g v : Str} (h : HasCssVer v) : HasCssVer (g ++ v) := by
  obtain ⟨pre, u, post, rfl⟩ := h
  exact ⟨g ++ pre, u, post, by simp⟩

theorem stripCssVer_noHit (w : Str) : NoHit reCssVer (stripCssVer w) := by
  refine noHit_replaceAll _ progress_reCssVer (fun _ => True) (fun _ _ _ => trivial)
    ?_ ?_ w trivial
  · intro m r caps _ he g t _ h
    obtain ⟨hcaps, q, hmr, -⟩ := (mem_run_reCssVer _ (caps, r)).1 (exec_mem he)
    simp only at hcaps hmr
    subst hcaps
    rw [exec_reCssVer_isSome_iff] at h ⊢
    have hE : expand [cssName] [Piece.cap 1, Piece.text ['"']] = cssName ++ ['"'] := by
      simp [expand]
    rw [hE] at h
    have h1 : cssLit <+: (g ++ cssName) ++ '"' :: t := by simpa using h.1
    have h2 := prefix_sep h1 (by decide)
    have hquote : '"' ∈ g ++ (m ++ r) := by rw [hmr]; simp
    refine ⟨?_, hquote⟩
    rcases prefix_append_cases h2 with h3 | ⟨q1, hq1, h4, h5⟩
    · exact h3.trans (List.prefix_append _ _)
    · exfalso
      have hlen : g.length < cssLit.length := by
        have := congrArg List.length h4
        rw [List.length_append] at this
        have : 0 < q1.length := List.length_pos.2 hq1
        omega
      have hq : q1 = cssLit.drop g.length := by rw [h4, List.drop_left]
      have key : ∀ j, j < cssLit.length → (cssLit.drop j).isPrefixOf cssName = false := by
        decide
      have := key g.length hlen
      rw [← hq] at this
      rw [← List.isPrefixOf_iff_prefix] at h5
      rw [h5] at this
      cases this
  · intro m r caps _ he k t hk
    obtain ⟨hcaps, -⟩ := (mem_run_reCssVer _ (caps, r)).1 (exec_mem he)
    simp only at hcaps
    subst hcaps
    have hE : expand [cssName] [Piece.cap 1, Piece.text ['"']] = cssName ++ ['"'] := by
      simp [expand]
    rw [hE] at hk ⊢
    cases hx : reCssVer.exec (List.drop k (cssName ++ ['"']) ++ t) with
    | none => rfl
    | some x =>
      exfalso
      have h1 := ((exec_reCssVer_isSome_iff _).1 (by rw [hx]; rfl)).1
      have h2 := agree_of_starts h1
      have key : ∀ j, j < (cssName ++ ['"']).length →
          agree cssLit (List.drop j (cssName ++ ['"'])) = false := by decide
      rw [key k hk] at h2
      cases h2

/-! ## Step 4 leaves no `p-5djb21-result__item">` and creates no `app.css?ver=` match -/

theorem markLoaded_noHit (w : Str) : NoHit reItem (markLoaded w) := by
  have hE : ∀ caps, expand caps [Piece.text itemLoaded] = itemLoaded := by
    intro caps; simp [expand]
  refine noHit_replaceAll _ (progress_lit (by decide)) (fun _ => True)
    (fun _ _ _ => trivial) ?_ ?_ w trivial
  · intro m r caps _ he g t _ h
    obtain ⟨-, hmr⟩ := (exec_lit_eq_some _ _ _ _).1 he
    rw [hE] at h
    cases hx : (Re.lit itemClose).exec (g ++ (m ++ r)) with
    | some x => rfl
    | none =>
      exfalso
      have hx1 : ¬ itemClose <+: g ++ (m ++ r) := (exec_lit_eq_none _ _).1 hx
      have h1 : itemClose <+: g ++ (itemLoaded ++ t) := by
        by_contra hn
        rw [(exec_lit_eq_none _ _).2 hn] at h
        cases h
      rcases prefix_append_cases h1 with h3 | ⟨q1, hq1, h4, h5⟩
      · exact hx1 (h3.trans (List.prefix_append _ _))
      · have hlen : g.length < itemClose.length := by
          have := congrArg List.length h4
          rw [List.length_append] at this
          have : 0 < q1.length := List.length_pos.2 hq1
          omega
        by_cases hg : g.length = 0
        · have : g = [] := List.length_eq_zero.1 hg
          subst this
          rw [hmr] at hx1
          exact hx1 (by simp)
        · have hq : q1 = itemClose.drop g.length := by rw [h4, List.drop_left]
          have key : ∀ j, j < itemClose.length → j ≠ 0 →
              agree (itemClose.drop j) itemLoaded = false := by decide
          have := key g.length hlen hg
          rw [← hq, agree_of_starts h5] at this
          cases this
  · intro m r caps _ he k t hk
    rw [hE] at hk ⊢
    rw [exec_lit_eq_none]
    intro h1
    have h2 := agree_of_starts h1
    have key : ∀ j, j < itemLoaded.length → agree itemClose (List.drop j itemLoaded) = false := by
      decide
    rw [key k hk] at h2
    cases h2

theorem markLoaded_hasCssVer {v : Str} (h : HasCssVer (markLoaded v)) : HasCssVer v := by
  have hE : ∀ caps, expand caps [Piece.text itemLoaded] = itemLoaded := by
    intro caps; simp [expand]
  have := replaceAll_reflects [Piece.text itemLoaded] (progress_lit (s := itemClose) (by decide))
    HasCssVer ?_ v [] (by simpa using h)
  · simpa using this
  · intro m r caps _ he g h
    obtain ⟨-, hmr⟩ := (exec_lit_eq_some _ _ _ _).1 he
    rw [hE] at h
    rw [hmr]
    clear hmr he
    induction g with
    | nil =>
      obtain ⟨k, hk1, hk2⟩ := (hasCssVer_iff _).1 h
      simp only [List.nil_append] at hk1 hk2 ⊢
      by_cases hk : k < itemLoaded.length
      · exfalso
        rw [List.drop_append_of_le_length (Nat.le_of_lt hk)] at hk1
        have h2 := agree_of_starts hk1
        have key : ∀ j, j < itemLoaded.length → agree cssLit (List.drop j itemLoaded) = false := by
          decide
        rw [key k hk] at h2
        cases h2
      · obtain ⟨j, rfl⟩ := Nat.exists_eq_add_of_le (Nat.le_of_not_lt hk)
        rw [List.drop_append] at hk1 hk2
        exact hasCssVer_of_suffix ((hasCssVer_iff _).2 ⟨j, hk1, hk2⟩)
    | cons d g ih =>
      obtain ⟨k, hk1, hk2⟩ := (hasCssVer_iff _).1 h
      cases k with
      | zero =>
        rw [List.drop_zero] at hk1
        refine (hasCssVer_iff _).2 ⟨0, ?_, ?_⟩
        · rw [List.drop_zero]
          have h1 : cssLit <+: ((d :: g) ++ "p".toList) ++
              '-' :: ("5djb21-result__item is-loaded\">".toList ++ r) := by
            simpa [itemLoaded] using hk1
          have h2 := prefix_sep h1 (by decide)
          refine h2.trans ?_
          refine ⟨"-5djb21-result__item\">".toList ++ r, ?_⟩
          simp [itemClose]
        · simp [itemClose]
      | succ k =>
        rw [List.cons_append, List.drop_succ_cons] at hk1 hk2
        have := ih ((hasCssVer_iff _).2 ⟨k, hk1, hk2⟩)
        exact hasCssVer_of_suffix (g := [d]) this

/-! ## Step 1 leaves no live-origin prefix, and the later steps create none -/

theorem rewriteOrigin_noHit (w : Str) (hw : ¬ (LIVE_SITE ++ liveOrigin) <:+: w) :
    NoHit reOrigin (rewriteOrigin w) := by
  have hE : ∀ caps, expand caps [Piece.text mirrorPrefix] = mirrorPrefix := by
    intro caps; simp [expand]
  refine noHit_replaceAll _ (progress_lit (by decide))
    (fun v => ¬ (LIVE_SITE ++ liveOrigin) <:+: v) ?_ ?_ ?_ w hw
  · intro g v h hv
    exact h (hv.trans (List.suffix_append g v).isInfix)
  · intro m r caps _ he g t hi h
    obtain ⟨-, hmr⟩ := (exec_lit_eq_some _ _ _ _).1 he
    rw [hE] at h
    cases hx : (Re.lit liveOrigin).exec (g ++ (m ++ r)) with
    | some x => rfl
    | none =>
      exfalso
      have hx1 : ¬ liveOrigin <+: g ++ (m ++ r) := (exec_lit_eq_none _ _).1 hx
      have h1 : liveOrigin <+: g ++ (mirrorPrefix ++ t) := by
        by_contra hn
        rw [(exec_lit_eq_none _ _).2 hn] at h
        cases h
      rcases prefix_append_cases h1 with h3 | ⟨q1, hq1, h4, h5⟩
      · exact hx1 (h3.trans (List.prefix_append _ _))
      · have hlen : g.length < liveOrigin.length := by
          have := congrArg List.length h4
          rw [List.length_append] at this
          have : 0 < q1.length := List.length_pos.2 hq1
          omega
        have hq : q1 = liveOrigin.drop g.length := by rw [h4, List.drop_left]
        by_cases hg : g.length = 25
        · have hg1 : g = LIVE_SITE := by
            have h6 : liveOrigin.take g.length = g := by rw [h4, List.take_left]
            rw [← h6, hg]; decide
          apply hi
          rw [hg1, hmr]
          exact ⟨[], r, by simp⟩
        · have key : ∀ j, j < liveOrigin.length → j ≠ 25 →
              agree (liveOrigin.drop j) mirrorPrefix = false := by decide
          have := key g.length hlen hg
          rw [← hq, agree_of_starts h5] at this
          cases this
  · intro m r caps _ he k t hk
    rw [hE] at hk ⊢
    rw [exec_lit_eq_none]
    intro h1
    have h2 := agree_of_starts h1
    have key : ∀ j, j < mirrorPrefix.length →
        agree liveOrigin (List.drop j mirrorPrefix) = false := by decide
    rw [key k hk] at h2
    cases h2

theorem commentBundle_origin {v : Str} (h : liveOrigin <:+: commentBundle v) :
    liveOrigin <:+: v := by
  have := replaceAll_reflects
    [Piece.text "<!-- <script".toList, Piece.cap 1, Piece.text "></script> -->".toList]
    progress_reScript (fun u => liveOrigin <:+: u) ?_ v [] (by simpa using h)
  · simpa using this
  · intro m r caps _ he g h
    obtain ⟨attrs, hmr, -, -, hcaps⟩ := mem_run_reScript (exec_mem he)
    simp only at hmr hcaps
    subst hcaps
    rw [hmr]
    have hE : expand [attrs]
        [Piece.text "<!-- <script".toList, Piece.cap 1, Piece.text "></script> -->".toList]
        = "<!-- <script".toList ++ attrs ++ "></script> -->".toList := by
      simp [expand]
    rw [hE] at h
    have h0 : liveOrigin <:+: g ++ '<' :: ("!-- ".toList ++ '<' :: (("script".toList ++ attrs)
        ++ '>' :: ([] ++ '<' :: ("/script".toList ++ '>' :: (" --".toList ++ '>' :: r))))) := by
      simpa using h
    rcases infix_sep (by decide) h0 with h1 | h1
    · exact h1.trans ⟨[], scriptOpen ++ attrs ++ scriptClose ++ r, by simp⟩
    rcases infix_sep (by decide) h1 with h2 | h2
    · exact absurd h2 (by decide)
    rcases infix_sep (by decide) h2 with h3 | h3
    · refine h3.trans ⟨g ++ ['<'], scriptClose ++ r, ?_⟩
      simp [scriptOpen]
    rcases infix_sep (by decide) h3 with h4 | h4
    · exact absurd h4 (by decide)
    rcases infix_sep (by decide) h4 with h5 | h5
    · exact absurd h5 (by decide)
    rcases infix_sep (by decide) h5 with h6 | h6
    · exact absurd h6 (by decide)
    · exact h6.trans ⟨g ++ (scriptOpen ++ attrs ++ scriptClose), [], by simp⟩

theorem stripCssVer_origin {v : Str} (h : liveOrigin <:+: stripCssVer v) :
    liveOrigin <:+: v := by
  have := replaceAll_reflects [Piece.cap 1, Piece.text ['"']]
    progress_reCssVer (fun u => liveOrigin <:+: u) ?_ v [] (by simpa using h)
  · simpa using this
  · intro m r caps _ he g h
    obtain ⟨hcaps, q, hmr, -⟩ := (mem_run_reCssVer _ (caps, r)).1 (exec_mem he)
    simp only at hmr hcaps
    subst hcaps
    rw [hmr]
    have hE : expand [cssName] [Piece.cap 1, Piece.text ['"']] = cssName ++ ['"'] := by
      simp [expand]
    rw [hE] at h
    have h0 : liveOrigin <:+: (g ++ cssName) ++ '"' :: r := by simpa using h
    rcases infix_sep (by decide) h0 with h1 | h1
    · exact h1.trans ⟨[], verParam ++ q ++ '"' :: r, by simp⟩
    · exact h1.trans ⟨g ++ (cssName ++ verParam ++ q ++ ['"']), [], by simp⟩

theorem markLoaded_origin {v : Str} (h : liveOrigin <:+: markLoaded v) :
    liveOrigin <:+: v := by
  have := replaceAll_reflects [Piece.text itemLoaded]
    (progress_lit (s := itemClose) (by decide)) (fun u => liveOrigin <:+: u) ?_ v []
    (by simpa using h)
  · simpa using this
  · intro m r caps _ he g h
    obtain ⟨-, hmr⟩ := (exec_lit_eq_some _ _ _ _).1 he
    rw [hmr]
    have hE : expand caps [Piece.text itemLoaded] = itemLoaded := by simp [expand]
    rw [hE] at h
    have h0 : liveOrigin <:+: (g ++ "p".toList) ++ '-' ::
        ("5djb21-result__item is-loaded".toList ++ '"' :: ([] ++ '>' :: r)) := by
      simpa [itemLoaded] using h
    rcases infix_sep (by decide) h0 with h1 | h1
    · refine h1.trans ⟨[], "-5djb21-result__item\">".toList ++ r, ?_⟩
      simp [itemClose]
    rcases infix_sep (by decide) h1 with h2 | h2
    · exact absurd h2 (by decide)
    rcases infix_sep (by decide) h2 with h3 | h3
    · exact absurd h3 (by decide)
    · exact h3.trans ⟨g ++ itemClose, [], by simp⟩

/-! ## C1, C2: what a second pass can still change -/

theorem HasBundleScript.open_occurs {x : Str} (h : HasBundleScript x) :
    scriptOpen <:+: x := by
  obtain ⟨pre, attrs, post, rfl, -⟩ := h
  exact ⟨pre, attrs ++ scriptClose ++ post, by simp⟩

theorem HasCssVer.lit_occurs {x : Str} (h : HasCssVer x) : "app.css?ver=".toList <:+: x := by
  obtain ⟨pre, v, post, rfl⟩ := h
  exact ⟨pre, v ++ '"' :: post, by simp⟩

theorem deactivateHtml_fixed (y : Str) (h1 : ¬ HasLiveOrigin y) (h2 : ¬ HasBundleScript y)
    (h3 : ¬ HasCssVer y) (h4 : ¬ HasItemClose y) : deactivateHtml y = y := by
  have e1 : rewriteOrigin y = y :=
    replaceAll_of_noHit _ y ((noHit_lit_iff liveOrigin y).2 h1)
  have e2 : commentBundle y = y := replaceAll_of_noHit _ y (noHit_reScript h2)
  have e3 : stripCssVer y = y := replaceAll_of_noHit _ y (noHit_reCssVer h3)
  have e4 : markLoaded y = y := replaceAll_of_noHit _ y ((noHit_lit_iff itemClose y).2 h4)
  unfold deactivateHtml
  rw [e1, e2, e3, e4]

theorem deactivateHtml_no_cssVer (x : Str) : ¬ HasCssVer (deactivateHtml x) := by
  intro h
  have h1 := markLoaded_hasCssVer h
  exact (noHit_reCssVer_iff _).1 (stripCssVer_noHit _) h1

theorem deactivateHtml_no_itemClose (x : Str) : ¬ HasItemClose (deactivateHtml x) :=
  (noHit_lit_iff itemClose _).1 (markLoaded_noHit _)

/-- C1 (as stated, refuted): on the markup `<script src="app.bundle.js"></script>` a
second application of `deactivateHtml` changes the result of the first. -/
theorem deactivateHtml_not_idempotent :
    deactivateHtml (deactivateHtml "<script src=\"app.bundle.js\"></script>".toList)
      ≠ deactivateHtml "<script src=\"app.bundle.js\"></script>".toList := by
  decide

/-- C1 (amended): whenever the output of `deactivateHtml` contains no live-origin prefix
and no empty-bodied script tag mentioning `app.bundle.js`, applying `deactivateHtml`
again leaves it unchanged. -/
theorem deactivateHtml_idempotent_of (x : Str) (h1 : ¬ HasLiveOrigin (deactivateHtml x))
    (h2 : ¬ HasBundleScript (deactivateHtml x)) :
    deactivateHtml (deactivateHtml x) = deactivateHtml x :=
  deactivateHtml_fixed _ h1 h2 (deactivateHtml_no_cssVer x) (deactivateHtml_no_itemClose x)

/-- Witness for C1 (amended) at a markup on which steps 1, 3 and 4 all fire. -/
theorem deactivateHtml_idempotent_of_witness :
    deactivateHtml (deactivateHtml
      "<a href=\"https://www.qtes9gu0k.xyz/a\"><link href=\"app.css?ver=1\"><li class=\"p-5djb21-result__item\">".toList)
    = deactivateHtml
      "<a href=\"https://www.qtes9gu0k.xyz/a\"><link href=\"app.css?ver=1\"><li class=\"p-5djb21-result__item\">".toList :=
  deactivateHtml_idempotent_of _
    (by unfold HasLiveOrigin; decide)
    (fun h => absurd h.open_occurs (by decide))

/-- C2 (as stated, refuted): the output for the markup
`https://www.qtes9gu0k.xyzhttps://www.qtes9gu0k.xyz/` still contains the live-origin
prefix. -/
theorem deactivateHtml_keeps_origin :
    HasLiveOrigin (deactivateHtml
      "https://www.qtes9gu0k.xyzhttps://www.qtes9gu0k.xyz/".toList) := by
  unfold HasLiveOrigin; decide

theorem joinWith_cons_cons (sep : Str) (c : Char) (g : Str) (rest : List Str) :
    joinWith sep ((c :: g) :: rest) = c :: joinWith sep (g :: rest) := by
  cases rest <;> simp [joinWith]

theorem joinWith_nil_cons (sep g : Str) (rest : List Str) :
    joinWith sep ([] :: g :: rest) = sep ++ joinWith sep (g :: rest) := by
  simp [joinWith]

theorem exists_origin_pieces (x : Str) :
    ∃ gs : List Str, gs ≠ [] ∧ (∀ g ∈ gs, ¬ liveOrigin <:+: g) ∧ x = joinWith liveOrigin gs := by
  induction x using replace_induction (progress_lit (s := liveOrigin) (by decide)) with
  | nil => exact ⟨[[]], by simp, by decide, rfl⟩
  | skip c cs hc ih =>
    obtain ⟨gs, hne, hgs, hx⟩ := ih
    cases gs with
    | nil => exact absurd rfl hne
    | cons g rest =>
      refine ⟨(c :: g) :: rest, by simp, ?_, ?_⟩
      · intro g1 hg1
        rcases List.mem_cons.1 hg1 with rfl | hg1
        · intro hin
          rcases List.infix_cons_iff.1 hin with h1 | h1
          · have hpre : (c :: g) <+: c :: cs := by
              rw [hx, List.cons_prefix_cons]
              refine ⟨rfl, ?_⟩
              cases rest with
              | nil => exact List.prefix_refl _
              | cons g2 rest => exact ⟨liveOrigin ++ joinWith liveOrigin (g2 :: rest), by
                  simp [joinWith]⟩
            exact (exec_lit_eq_none _ _).1 hc (h1.trans hpre)
          · exact hgs g (List.mem_cons_self _ _) h1
        · exact hgs g1 (List.mem_cons_of_mem _ hg1)
      · rw [joinWith_cons_cons, hx]
  | hit m r caps hm he ih =>
    obtain ⟨gs, hne, hgs, hx⟩ := ih
    obtain ⟨-, hmr⟩ := (exec_lit_eq_some _ _ _ _).1 he
    cases gs with
    | nil => exact absurd rfl hne
    | cons g rest =>
      refine ⟨[] :: g :: rest, by simp, ?_, ?_⟩
      · intro g1 hg1
        rcases List.mem_cons.1 hg1 with rfl | hg1
        · decide
        · exact hgs g1 hg1
      · rw [joinWith_nil_cons, hmr, hx]

theorem rewriteOrigin_gap (t : Str) : ∀ g : Str, ¬ liveOrigin <:+: g →
    rewriteOrigin (g ++ (liveOrigin ++ t)) = g ++ (mirrorPrefix ++ rewriteOrigin t) := by
  intro g
  induction g with
  | nil =>
    intro _
    have he : reOrigin.exec ([] ++ (liveOrigin ++ t)) = some ([], t) := by
      simp [reOrigin, exec_lit_eq_some]
    have := replaceAll_hit [Piece.text mirrorPrefix] (m := liveOrigin) (r := t) (by decide)
      (by simpa using he)
    simpa [rewriteOrigin, expand] using this
  | cons c g ih =>
    intro hg
    have hg1 : ¬ liveOrigin <:+: g := fun h => hg (h.trans (List.suffix_cons c g).isInfix)
    have hnone : reOrigin.exec (c :: (g ++ (liveOrigin ++ t))) = none := by
      rw [reOrigin, exec_lit_eq_none]
      intro hpre
      have hpre1 : liveOrigin <+: (c :: g) ++ (liveOrigin ++ t) := by simpa using hpre
      rcases prefix_append_cases hpre1 with h1 | ⟨q1, hq1, h4, h5⟩
      · exact hg h1.isInfix
      · have hlen : (c :: g).length < liveOrigin.length := by
          have := congrArg List.length h4
          rw [List.length_append] at this
          have : 0 < q1.length := List.length_pos.2 hq1
          omega
        have hq : q1 = liveOrigin.drop (c :: g).length := by rw [h4, List.drop_left]
        have key : ∀ j, j < liveOrigin.length → j ≠ 0 →
            agree (liveOrigin.drop j) liveOrigin = false := by decide
        have := key (c :: g).length hlen (by simp)
        rw [← hq, agree_of_starts h5] at this
        cases this
    have e1 : rewriteOrigin (c :: (g ++ (liveOrigin ++ t)))
        = c :: rewriteOrigin (g ++ (liveOrigin ++ t)) := replaceAll_cons_none _ hnone
    rw [List.cons_append, e1, ih hg1, List.cons_append]

theorem rewriteOrigin_joinWith : ∀ gs : List Str, (∀ g ∈ gs, ¬ liveOrigin <:+: g) →
    rewriteOrigin (joinWith liveOrigin gs) = joinWith mirrorPrefix gs := by
  intro gs
  induction gs with
  | nil => intro _; exact replaceAll_nil _ (by simp [reOrigin, exec_lit_eq_none]; decide)
  | cons g rest ih =>
    intro h
    cases rest with
    | nil =>
      exact replaceAll_of_noHit _ g
        ((noHit_lit_iff liveOrigin g).2 (h g (List.mem_cons_self _ _)))
    | cons g2 rest =>
      have h1 := ih fun g1 hg1 => h g1 (List.mem_cons_of_mem _ hg1)
      have e : joinWith liveOrigin (g :: g2 :: rest)
          = g ++ (liveOrigin ++ joinWith liveOrigin (g2 :: rest)) := by simp [joinWith]
      rw [e, rewriteOrigin_gap _ g (h g (List.mem_cons_self _ _)), h1]
      simp [joinWith]

theorem deactivateHtml_origin_pieces (x : Str) :
    (∃ gs : List Str, (∀ g ∈ gs, ¬ liveOrigin <:+: g) ∧ x = joinWith liveOrigin gs) ∧
    (∀ gs : List Str, (∀ g ∈ gs, ¬ liveOrigin <:+: g) → x = joinWith liveOrigin gs →
      rewriteOrigin x = joinWith mirrorPrefix gs ∧
      deactivateHtml x
        = markLoaded (stripCssVer (commentBundle (joinWith mirrorPrefix gs)))) ∧
    (¬ (LIVE_SITE ++ liveOrigin) <:+: x → ¬ HasLiveOrigin (deactivateHtml x)) := by
  refine ⟨?_, ?_, ?_⟩
  · obtain ⟨gs, -, h1, h2⟩ := exists_origin_pieces x
    exact ⟨gs, h1, h2⟩
  · intro gs hgs hx
    have h1 : rewriteOrigin x = joinWith mirrorPrefix gs := by
      rw [hx]; exact rewriteOrigin_joinWith gs hgs
    refine ⟨h1, ?_⟩
    unfold deactivateHtml
    rw [h1]
  · intro h h1
    have h2 := stripCssVer_origin (markLoaded_origin h1)
    have h3 := commentBundle_origin h2
    exact (noHit_lit_iff liveOrigin _).1 (rewriteOrigin_noHit x h) h3

/-- C2 (amended): every markup string splits at its occurrences of the live-origin
prefix `https://www.qtes9gu0k.xyz/` into pieces that do not contain it; step 1 rewrites
every one of these occurrences to the mirror path prefix `/20260212/`, so that
`deactivateHtml` returns steps 2 to 4 applied to the same pieces joined by `/20260212/`;
and for every markup that nowhere contains `https://www.qtes9gu0k.xyz` immediately
followed by `https://www.qtes9gu0k.xyz/`, the output of `deactivateHtml` contains no
occurrence of the live-origin prefix. -/
theorem deactivateHtml_origin_rewritten (x : Str) :
    (∃ gs : List Str, (∀ g ∈ gs, ¬ "https://www.qtes9gu0k.xyz/".toList <:+: g) ∧
      x = joinWith "https://www.qtes9gu0k.xyz/".toList gs) ∧
    (∀ gs : List Str, (∀ g ∈ gs, ¬ "https://www.qtes9gu0k.xyz/".toList <:+: g) →
      x = joinWith "https://www.qtes9gu0k.xyz/".toList gs →
      rewriteOrigin x = joinWith "/20260212/".toList gs ∧
      deactivateHtml x
        = markLoaded (stripCssVer (commentBundle (joinWith "/20260212/".toList gs)))) ∧
    (¬ "https://www.qtes9gu0k.xyzhttps://www.qtes9gu0k.xyz/".toList <:+: x →
      ¬ "https://www.qtes9gu0k.xyz/".toList <:+: deactivateHtml x) :=
  deactivateHtml_origin_pieces x

/-- Witness for C2 (amended) at a markup with two live-origin links, one of them in a
result item that step 4 marks as loaded. -/
theorem deactivateHtml_origin_rewritten_witness :
    (rewriteOrigin
        "<a class=\"p-5djb21-result__item\" href=\"https://www.qtes9gu0k.xyz/a\">https://www.qtes9gu0k.xyz/b</a>".toList
      = "<a class=\"p-5djb21-result__item\" href=\"/20260212/a\">/20260212/b</a>".toList ∧
     deactivateHtml
        "<a class=\"p-5djb21-result__item\" href=\"https://www.qtes9gu0k.xyz/a\">https://www.qtes9gu0k.xyz/b</a>".toList
      = markLoaded (stripCssVer (commentBundle
          "<a class=\"p-5djb21-result__item\" href=\"/20260212/a\">/20260212/b</a>".toList))) ∧
    ¬ "https://www.qtes9gu0k.xyz/".toList <:+: deactivateHtml
      "<a class=\"p-5djb21-result__item\" href=\"https://www.qtes9gu0k.xyz/a\">https://www.qtes9gu0k.xyz/b</a>".toList :=
  ⟨(deactivateHtml_origin_rewritten
      "<a class=\"p-5djb21-result__item\" href=\"https://www.qtes9gu0k.xyz/a\">https://www.qtes9gu0k.xyz/b</a>".toList).2.1
      ["<a class=\"p-5djb21-result__item\" href=\"".toList, "a\">".toList, "b</a>".toList]
      (by decide) (by decide),
   (deactivateHtml_origin_rewritten
      "<a class=\"p-5djb21-result__item\" href=\"https://www.qtes9gu0k.xyz/a\">https://www.qtes9gu0k.xyz/b</a>".toList).2.2
      (by decide)⟩

/-! ## C3: identity on markup without target patterns -/

/-- C3: `deactivateHtml` is a total function, and on every markup string that contains no
live-origin prefix, no empty-bodied script tag mentioning `app.bundle.js`, no
`app.css?ver=` followed by a double quote and no `p-5djb21-result__item">`, it returns
its argument unchanged. -/
theorem deactivateHtml_id_of_no_pattern (x : Str) (h1 : ¬ HasLiveOrigin x)
    (h2 : ¬ HasBundleScript x) (h3 : ¬ HasCssVer x) (h4 : ¬ HasItemClose x) :
    deactivateHtml x = x :=
  deactivateHtml_fixed x h1 h2 h3 h4

/-- Witness for C3 at the markup `<p>hello</p>`. -/
theorem deactivateHtml_id_of_no_pattern_witness :
    deactivateHtml "<p>hello</p>".toList = "<p>hello</p>".toList :=
  deactivateHtml_id_of_no_pattern "<p>hello</p>".toList
    (by unfold HasLiveOrigin; decide)
    (fun h => absurd h.open_occurs (by decide))
    (fun h => absurd h.lit_occurs (by decide))
    (by unfold HasItemClose; decide)

/-! ## The extraction pattern -/

theorem mem_run_seq_lit (s : Str) (b : Re) (inp : Str) (x : List Str × Str) :
    x ∈ (Re.seq (.lit s) b).run inp ↔ ∃ r, inp = s ++ r ∧ x ∈ b.run r := by
  rw [mem_run_seq]
  constructor
  · rintro ⟨y, hy, z, hz, rfl⟩
    rw [mem_run_lit] at hy
    refine ⟨y.2, hy.2, ?_⟩
    rw [hy.1]
    simpa using hz
  · rintro ⟨r, hr, hx⟩
    exact ⟨([], r), (mem_run_lit _ _ _).2 ⟨rfl, hr⟩, x, hx, by simp⟩

theorem mem_run_seq_star (p : Char → Bool) (b : Re) (inp : Str) (x : List Str × Str) :
    x ∈ (Re.seq (.star p) b).run inp ↔
      ∃ m r, inp = m ++ r ∧ (∀ c ∈ m, p c = true) ∧ x ∈ b.run r := by
  rw [mem_run_seq]
  constructor
  · rintro ⟨y, hy, z, hz, rfl⟩
    rw [mem_run_star] at hy
    obtain ⟨hy1, m, hm, hall⟩ := hy
    refine ⟨m, y.2, hm, hall, ?_⟩
    rw [hy1]
    simpa using hz
  · rintro ⟨m, r, hr, hall, hx⟩
    exact ⟨([], r), (mem_run_star _ _ _).2 ⟨rfl, m, hr, hall⟩, x, hx, by simp⟩

theorem mem_run_reTerminator (s : Str) (x : List Str × Str) :
    x ∈ reTerminator.run s ↔
      x.1 = [] ∧ ∃ w1 w2 w3,
        s = divClose ++ w1 ++ divClose ++ w2 ++ divClose ++ w3 ++ mainClose ++ x.2 ∧
        (∀ c ∈ w1, isJsSpace c = true) ∧ (∀ c ∈ w2, isJsSpace c = true) ∧
        (∀ c ∈ w3, isJsSpace c = true) := by
  unfold reTerminator
  simp only [mem_run_seq_lit, mem_run_seq_star, mem_run_lit]
  constructor
  · rintro ⟨r1, h1, w1, r2, h2, hw1, r3, h3, w2, r4, h4, hw2, r5, h5, w3, r6, h6, hw3, hx,
      h7⟩
    refine ⟨hx, w1, w2, w3, ?_, hw1, hw2, hw3⟩
    rw [h1, h2, h3, h4, h5, h6, h7]
    simp
  · rintro ⟨hx, w1, w2, w3, hs, hw1, hw2, hw3⟩
    exact ⟨_, by rw [hs]; simp only [List.append_assoc], w1, _, rfl, hw1, _, rfl,
      w2, _, rfl, hw2, _, rfl, w3, _, rfl, hw3, hx, rfl⟩

theorem exec_reTerminator_isSome_iff (s : Str) :
    (reTerminator.exec s).isSome = true ↔ StartsWithTerminator s := by
  constructor
  · intro h
    cases he : reTerminator.exec s with
    | none => rw [he] at h; cases h
    | some x =>
      obtain ⟨-, w1, w2, w3, hs, h1, h2, h3⟩ := (mem_run_reTerminator s x).1 (exec_mem he)
      exact ⟨w1, w2, w3, x.2, hs, h1, h2, h3⟩
  · rintro ⟨w1, w2, w3, r, hs, h1, h2, h3⟩
    exact exec_isSome_of_mem (x := ([], r))
      ((mem_run_reTerminator s _).2 ⟨rfl, w1, w2, w3, hs, h1, h2, h3⟩)

theorem exec_reTerminator_caps {s : Str} {x : List Str × Str}
    (h : reTerminator.exec s = some x) : x.1 = [] :=
  ((mem_run_reTerminator s x).1 (exec_mem h)).1

theorem lazyThenTerm_cons (pre : Str) (c : Char) (cs : Str) :
    lazyThenTerm pre (c :: cs) =
      (reTerminator.run (c :: cs)).map (fun y => ([pre] ++ y.1, y.2))
        ++ lazyThenTerm (pre ++ [c]) cs := by
  unfold lazyThenTerm
  simp only [lazyRests, if_true, List.map_cons, List.flatMap_cons]
  congr 1
  · have : List.take ((pre ++ c :: cs).length - (c :: cs).length) (pre ++ c :: cs) = pre := by
      simp
    rw [this]
  · congr 1
    apply List.map_congr_left
    intro r _
    simp

theorem head_lazyThenTerm (s : Str) : ∀ pre : Str,
    (lazyThenTerm pre s).head? = (firstTerm s).map fun y => ([pre ++ y.1], y.2) := by
  induction s with
  | nil =>
    intro pre
    unfold lazyThenTerm firstTerm
    simp only [lazyRests, List.map_cons, List.map_nil, List.flatMap_cons, List.flatMap_nil,
      List.append_nil, List.head?_map]
    cases he : reTerminator.exec [] with
    | none =>
      unfold Re.exec at he
      simp [he]
    | some x =>
      have hx := exec_reTerminator_caps he
      unfold Re.exec at he
      simp [he, hx]
  | cons c cs ih =>
    intro pre
    rw [lazyThenTerm_cons, List.head?_append, List.head?_map, ih, firstTerm]
    cases he : reTerminator.exec (c :: cs) with
    | none =>
      have he1 : (reTerminator.run (c :: cs)).head? = none := he
      rw [he1]
      cases firstTerm cs <;> simp
    | some x =>
      have hx := exec_reTerminator_caps he
      have he1 : (reTerminator.run (c :: cs)).head? = some x := he
      rw [he1]
      simp [hx]

theorem exec_reResult (inp : Str) :
    reResult.exec inp =
      match dropLit resultAnchor inp with
      | none => none
      | some r0 => (firstTerm r0).map fun y => ([y.1], y.2) := by
  have hrun : ∀ r0, (Re.seq (.group (.lazyStar fun _ => true)) reTerminator).run r0
      = lazyThenTerm [] r0 := by
    intro r0
    simp only [Re.run, lazyThenTerm, List.map_map, List.nil_append]
    rfl
  unfold reResult Re.exec
  rw [Re.run]
  cases hd : dropLit resultAnchor inp with
  | none => simp [Re.run, hd]
  | some r0 =>
    simp only [Re.run, hd, List.flatMap_cons, List.flatMap_nil, List.append_nil] at hrun ⊢
    rw [hrun, List.head?_map, head_lazyThenTerm]
    cases firstTerm r0 <;> simp

theorem firstTerm_of_exec {s : Str} {x : List Str × Str} (h : reTerminator.exec s = some x) :
    firstTerm s = some ([], x.2) := by
  cases s <;> simp [firstTerm, h]

theorem firstTerm_first {post : Str} {x : List Str × Str}
    (hx : reTerminator.exec post = some x) :
    ∀ mid : Str, (∀ j, j < mid.length → reTerminator.exec ((mid ++ post).drop j) = none) →
      firstTerm (mid ++ post) = some (mid, x.2) := by
  intro mid
  induction mid with
  | nil => intro _; exact firstTerm_of_exec hx
  | cons c mid ih =>
    intro h
    have h0 : reTerminator.exec (c :: (mid ++ post)) = none := h 0 (by simp)
    have h1 : ∀ j, j < mid.length → reTerminator.exec ((mid ++ post).drop j) = none := by
      intro j hj
      exact h (j + 1) (by simpa using hj)
    rw [List.cons_append, firstTerm, h0, ih h1]
    rfl

theorem firstTerm_eq_some {s : Str} : ∀ {m r : Str}, firstTerm s = some (m, r) →
    ∃ post x, s = m ++ post ∧ reTerminator.exec post = some x ∧ x.2 = r ∧
      ∀ j, j < m.length → reTerminator.exec (s.drop j) = none := by
  induction s with
  | nil =>
    intro m r h
    unfold firstTerm at h
    cases he : reTerminator.exec [] with
    | none => rw [he] at h; cases h
    | some x =>
      rw [he] at h
      simp only [Option.some.injEq, Prod.mk.injEq] at h
      obtain ⟨rfl, rfl⟩ := h
      exact ⟨[], x, rfl, he, rfl, fun j hj => absurd hj (by simp)⟩
  | cons c cs ih =>
    intro m r h
    unfold firstTerm at h
    cases he : reTerminator.exec (c :: cs) with
    | some x =>
      rw [he] at h
      simp only [Option.some.injEq, Prod.mk.injEq] at h
      obtain ⟨rfl, rfl⟩ := h
      exact ⟨c :: cs, x, rfl, he, rfl, fun j hj => absurd hj (by simp)⟩
    | none =>
      rw [he] at h
      cases hf : firstTerm cs with
      | none => rw [hf] at h; cases h
      | some y =>
        rw [hf] at h
        simp only [Option.map_some', Option.some.injEq, Prod.mk.injEq] at h
        obtain ⟨rfl, rfl⟩ := h
        obtain ⟨post, x, h1, h2, h3, h4⟩ := ih (m := y.1) (r := y.2) hf
        refine ⟨post, x, by rw [h1]; simp, h2, h3, ?_⟩
        intro j hj
        cases j with
        | zero => exact he
        | succ j => exact h4 j (by simpa using hj)

theorem firstTerm_isSome {post : Str} (hx : (reTerminator.exec post).isSome = true) :
    ∀ mid : Str, (firstTerm (mid ++ post)).isSome = true := by
  intro mid
  induction mid with
  | nil =>
    cases he : reTerminator.exec post with
    | none => rw [he] at hx; cases hx
    | some x => rw [List.nil_append, firstTerm_of_exec he]; rfl
  | cons c mid ih =>
    rw [List.cons_append, firstTerm]
    cases reTerminator.exec (c :: (mid ++ post)) with
    | some x => rfl
    | none =>
      cases hf : firstTerm (mid ++ post) with
      | none => rw [hf] at ih; cases ih
      | some y => rfl

theorem search_of_exec {re : Re} {s : Str} {x : List Str × Str} (h : re.exec s = some x) :
    re.search s = some x := by
  cases s <;> simp [Re.search, h]

theorem search_eq_some {re : Re} {s : Str} {x : List Str × Str} : re.search s = some x →
    ∃ pre suf, s = pre ++ suf ∧ re.exec suf = some x ∧
      ∀ k, k < pre.length → re.exec (s.drop k) = none := by
  induction s with
  | nil =>
    intro h
    exact ⟨[], [], rfl, h, fun k hk => absurd hk (by simp)⟩
  | cons c cs ih =>
    intro h
    unfold Re.search at h
    cases he : re.exec (c :: cs) with
    | some y =>
      rw [he] at h
      simp only [Option.some.injEq] at h
      subst h
      exact ⟨[], c :: cs, rfl, he, fun k hk => absurd hk (by simp)⟩
    | none =>
      rw [he] at h
      obtain ⟨pre, suf, h1, h2, h3⟩ := ih h
      refine ⟨c :: pre, suf, by rw [h1]; rfl, h2, ?_⟩
      intro k hk
      cases k with
      | zero => exact he
      | succ k => exact h3 k (by simpa using hk)

theorem search_isSome {re : Re} {suf : Str} (h : (re.exec suf).isSome = true) :
    ∀ pre : Str, (re.search (pre ++ suf)).isSome = true := by
  intro pre
  induction pre with
  | nil =>
    cases he : re.exec suf with
    | none => rw [he] at h; cases h
    | some x => rw [List.nil_append, search_of_exec he]; rfl
  | cons c pre ih =>
    rw [List.cons_append, Re.search]
    cases re.exec (c :: (pre ++ suf)) with
    | some x => rfl
    | none => exact ih

theorem search_skip {re : Re} {suf : Str} {x : List Str × Str} (hx : re.exec suf = some x) :
    ∀ pre : Str, (∀ k, k < pre.length → re.exec ((pre ++ suf).drop k) = none) →
      re.search (pre ++ suf) = some x := by
  intro pre
  induction pre with
  | nil => intro _; exact search_of_exec hx
  | cons c pre ih =>
    intro h
    have h0 : re.exec (c :: (pre ++ suf)) = none := h 0 (by simp)
    rw [List.cons_append, Re.search, h0]
    exact ih fun k hk => h (k + 1) (by simpa using hk)

theorem exec_reResult_anchor (r0 : Str) :
    reResult.exec (resultAnchor ++ r0) = (firstTerm r0).map fun y => ([y.1], y.2) := by
  rw [exec_reResult, dropLit_append]

theorem exec_reResult_none {s : Str} (h : ¬ resultAnchor <+: s) : reResult.exec s = none := by
  rw [exec_reResult, (dropLit_eq_none_iff _ _).2 h]

theorem exec_reResult_eq_some {s : Str} {x : List Str × Str} (h : reResult.exec s = some x) :
    ∃ r0 m, s = resultAnchor ++ r0 ∧ firstTerm r0 = some (m, x.2) ∧ x.1 = [m] := by
  rw [exec_reResult] at h
  cases hd : dropLit resultAnchor s with
  | none => rw [hd] at h; cases h
  | some r0 =>
    rw [hd] at h
    dsimp only at h
    cases hf : firstTerm r0 with
    | none => rw [hf] at h; cases h
    | some y =>
      rw [hf] at h
      simp only [Option.map_some', Option.some.injEq] at h
      subst h
      exact ⟨r0, y.1, (dropLit_eq_some_iff _ _ _).1 hd, hf, rfl⟩

/-! ## C10: the extracted fragment -/

/-- C10: `extractResultHtml` returns a fragment exactly when the markup contains the
anchor `<div class="p-5djb21-result">` followed later by a terminator; the fragment is
the anchor, then the text between the end of the first anchor and the start of the first
terminator after it, then one `</div>`; without the anchor nothing is returned. -/
theorem extractResultHtml_spec (html : Str) :
    ((extractResultHtml html).isSome = true ↔
      ∃ pre mid post, html = pre ++ resultAnchor ++ mid ++ post ∧
        StartsWithTerminator post) ∧
    (∀ f, extractResultHtml html = some f ↔
      ∃ pre mid post, html = pre ++ resultAnchor ++ mid ++ post ∧
        (∀ k, k < pre.length → ¬ resultAnchor <+: html.drop k) ∧
        StartsWithTerminator post ∧
        (∀ j, j < mid.length → ¬ StartsWithTerminator ((mid ++ post).drop j)) ∧
        f = resultAnchor ++ mid ++ divClose) ∧
    (¬ resultAnchor <:+: html → extractResultHtml html = none) := by
  have hsome : ∀ pre mid post, html = pre ++ resultAnchor ++ mid ++ post →
      StartsWithTerminator post → (reResult.search html).isSome = true := by
    intro pre mid post h1 h2
    have h3 : html = pre ++ (resultAnchor ++ (mid ++ post)) := by rw [h1]; simp
    rw [h3]
    apply search_isSome
    rw [exec_reResult_anchor]
    have := firstTerm_isSome ((exec_reTerminator_isSome_iff post).2 h2) mid
    cases hf : firstTerm (mid ++ post) with
    | none => rw [hf] at this; cases this
    | some y => rfl
  have hdec : ∀ x, reResult.search html = some x →
      ∃ pre mid post, html = pre ++ resultAnchor ++ mid ++ post ∧
        (∀ k, k < pre.length → ¬ resultAnchor <+: html.drop k) ∧
        StartsWithTerminator post ∧
        (∀ j, j < mid.length → ¬ StartsWithTerminator ((mid ++ post).drop j)) ∧
        x.1 = [mid] := by
    intro x hx
    obtain ⟨pre, suf, h1, h2, h3⟩ := search_eq_some hx
    obtain ⟨r0, m, h4, h5, h6⟩ := exec_reResult_eq_some h2
    obtain ⟨post, y, h7, h8, -, h9⟩ := firstTerm_eq_some h5
    have hpost : StartsWithTerminator post :=
      (exec_reTerminator_isSome_iff post).1 (by rw [h8]; rfl)
    have hhtml : html = pre ++ resultAnchor ++ m ++ post := by
      rw [h1, h4, h7]; simp
    refine ⟨pre, m, post, hhtml, ?_, hpost, ?_, h6⟩
    · intro k hk hpre
      obtain ⟨r1, hr1⟩ := hpre
      have hnone := h3 k hk
      rw [← hr1, exec_reResult_anchor] at hnone
      have hdrop : r1 = List.drop (k + resultAnchor.length) html := by
        rw [← List.drop_drop, ← hr1, List.drop_left]
      have hle : k + resultAnchor.length ≤ (pre ++ resultAnchor ++ m).length := by
        simp only [List.length_append]; omega
      have hr2 : r1 = List.drop (k + resultAnchor.length) (pre ++ resultAnchor ++ m) ++ post := by
        rw [hdrop, hhtml, List.drop_append_of_le_length hle]
      have := firstTerm_isSome ((exec_reTerminator_isSome_iff post).2 hpost)
        (List.drop (k + resultAnchor.length) (pre ++ resultAnchor ++ m))
      rw [← hr2] at this
      cases hf : firstTerm r1 with
      | none => rw [hf] at this; cases this
      | some z => rw [hf] at hnone; cases hnone
    · intro j hj hswt
      have := h9 j hj
      rw [h7] at this
      rw [(exec_reTerminator_isSome_iff _).symm, this] at hswt
      cases hswt
  refine ⟨?_, ?_, ?_⟩
  · constructor
    · intro h
      unfold extractResultHtml at h
      cases hs : reResult.search html with
      | none => rw [hs] at h; cases h
      | some x =>
        obtain ⟨pre, mid, post, h1, -, h2, -⟩ := hdec x hs
        exact ⟨pre, mid, post, h1, h2⟩
    · rintro ⟨pre, mid, post, h1, h2⟩
      have := hsome pre mid post h1 h2
      unfold extractResultHtml
      cases hs : reResult.search html with
      | none => rw [hs] at this; cases this
      | some x => rfl
  · intro f
    constructor
    · intro h
      unfold extractResultHtml at h
      cases hs : reResult.search html with
      | none => rw [hs] at h; cases h
      | some x =>
        rw [hs] at h
        obtain ⟨pre, mid, post, h1, h2, h3, h4, h5⟩ := hdec x hs
        refine ⟨pre, mid, post, h1, h2, h3, h4, ?_⟩
        simp only [Option.some.injEq] at h
        rw [← h, h5]
        rfl
    · rintro ⟨pre, mid, post, h1, h2, h3, h4, rfl⟩
      obtain ⟨x, hx⟩ := Option.isSome_iff_exists.1 ((exec_reTerminator_isSome_iff post).2 h3)
      have hft : firstTerm (mid ++ post) = some (mid, x.2) := by
        apply firstTerm_first hx
        intro j hj
        cases he : reTerminator.exec (List.drop j (mid ++ post)) with
        | none => rfl
        | some z =>
          exact absurd ((exec_reTerminator_isSome_iff _).1 (by rw [he]; rfl)) (h4 j hj)
      have hex : reResult.exec (resultAnchor ++ (mid ++ post)) = some ([mid], x.2) := by
        rw [exec_reResult_anchor, hft]; rfl
      have h5 : html = pre ++ (resultAnchor ++ (mid ++ post)) := by rw [h1]; simp
      have hsr : reResult.search html = some ([mid], x.2) := by
        rw [h5]
        apply search_skip hex
        intro k hk
        apply exec_reResult_none
        rw [← h5]
        exact h2 k hk
      unfold extractResultHtml
      rw [hsr]
      rfl
  · intro h
    unfold extractResultHtml
    cases hs : reResult.search html with
    | none => rfl
    | some x =>
      exfalso
      obtain ⟨pre, mid, post, h1, -⟩ := hdec x hs
      apply h
      rw [h1]
      exact ⟨pre, mid ++ post, by simp⟩

/-- Witness for C10: a page whose results container is closed by a terminator with
white space between the closing tags. -/
theorem extractResultHtml_spec_witness :
    extractResultHtml
        "<main><div><div><div class=\"p-5djb21-result\"><p>r</p></div>\n</div> </div></main><footer>".toList
      = some "<div class=\"p-5djb21-result\"><p>r</p></div>".toList :=
  ((extractResultHtml_spec
      "<main><div><div><div class=\"p-5djb21-result\"><p>r</p></div>\n</div> </div></main><footer>".toList).2.1
      "<div class=\"p-5djb21-result\"><p>r</p></div>".toList).2
    ⟨"<main><div><div>".toList, "<p>r</p>".toList,
      "</div>\n</div> </div></main><footer>".toList, by decide, by decide,
      ⟨['\n'], [' '], [], "<footer>".toList, by decide, by decide, by decide, by decide⟩,
      fun j hj h => absurd ((exec_reTerminator_isSome_iff _).2 h)
        ((by decide : ∀ j, j < "<p>r</p>".toList.length →
          ¬ (reTerminator.exec (List.drop j
            ("<p>r</p>".toList ++ "</div>\n</div> </div></main><footer>".toList))).isSome = true)
          j hj),
      by decide⟩

/-! ## String primitives -/

theorem dropLit_isSome_iff (p inp : Str) : (dropLit p inp).isSome = true ↔ p <+: inp := by
  cases h : dropLit p inp with
  | none =>
    have := (dropLit_eq_none_iff p inp).1 h
    simp [this]
  | some r =>
    have := (dropLit_eq_some_iff p inp r).1 h
    simp only [Option.isSome_some, true_iff]
    exact ⟨r, this.symm⟩

theorem indexOf_isSome_iff (pat s : Str) : (indexOf pat s).isSome = true ↔ pat <:+: s := by
  induction s with
  | nil =>
    unfold indexOf
    by_cases h : pat = []
    · simp [h]
    · simp [h]
  | cons c cs ih =>
    unfold indexOf
    rw [List.infix_cons_iff, ← dropLit_isSome_iff, ← ih]
    cases h : (dropLit pat (c :: cs)).isSome with
    | true => simp
    | false => simp

theorem replaceFirst_append (pat rep r : Str) (h : pat ≠ []) :
    replaceFirst pat rep (pat ++ r) = rep ++ r := by
  cases pat with
  | nil => exact absurd rfl h
  | cons a pat =>
    have := dropLit_append (a :: pat) r
    rw [List.cons_append] at this ⊢
    rw [replaceFirst, this]

theorem infix_append_of_head_not_mem {c : Char} {q b : Str} :
    ∀ {a : Str}, c ∉ a → (c :: q) <:+: a ++ b → (c :: q) <:+: b := by
  intro a
  induction a with
  | nil => intro _ h; simpa using h
  | cons d a ih =>
    intro hc h
    rw [List.cons_append, List.infix_cons_iff] at h
    rcases h with h | h
    · rw [List.cons_prefix_cons] at h
      exact absurd (h.1 ▸ List.mem_cons_self d a) hc
    · exact ih (fun hm => hc (List.mem_cons_of_mem _ hm)) h

/-! ## C4: the relay transport -/

/-- C4 (as stated, refuted): in Relay mode, a reply whose `contents` field holds the
empty markup string makes `fetchFromLiveSite` fail with "allorigins returned no contents"
instead of returning `deactivateHtml` of the contents. -/
theorem fetch_relay_empty_contents :
    IS_LOCAL ⟨"https:".toList, "example.org".toList⟩ = false ∧
    fetchFromLiveSite ⟨"https:".toList, "example.org".toList⟩
        (fun _ => .json { contents := some [] }) LIVE_SITE
      = .error "allorigins returned no contents".toList := by
  constructor
  · decide
  · rfl

/-- C4 (amended): in Relay mode, for every target URL and every relay reply: if the
reply has a `contents` field holding a non-empty markup string `c`, `fetchFromLiveSite`
succeeds with `deactivateHtml c`; if the reply has no `contents` field, or an empty one,
it fails with an error whose message contains "no contents". -/
theorem fetch_relay (loc : Location) (net : Str → Reply) (url : Str) (data : Data)
    (hmode : IS_LOCAL loc = false)
    (hnet : net (ALLORIGINS ++ encodeURIComponent url) = .json data) :
    (∀ c, data.contents = some c → c ≠ [] →
      fetchFromLiveSite loc net url = .ok (deactivateHtml c)) ∧
    ((data.contents = none ∨ data.contents = some []) →
      ∃ msg, fetchFromLiveSite loc net url = .error msg ∧ "no contents".toList <:+: msg) := by
  constructor
  · intro c hc hne
    simp [fetchFromLiveSite, hmode, hnet, hc, hne]
  · intro h
    refine ⟨"allorigins returned no contents".toList, ?_, by decide⟩
    rcases h with h | h <;> simp [fetchFromLiveSite, hmode, hnet, h]

/-- Witness for C4 (amended): a relay reply carrying one live-origin link. -/
theorem fetch_relay_witness :
    (∀ c, (Data.mk false [] none (some "<a href=\"https://www.qtes9gu0k.xyz/\">".toList)).contents
        = some c → c ≠ [] →
      fetchFromLiveSite ⟨"https:".toList, "example.org".toList⟩
        (fun _ => .json ⟨false, [], none, some "<a href=\"https://www.qtes9gu0k.xyz/\">".toList⟩)
        LIVE_SITE = .ok (deactivateHtml c)) ∧
    (((Data.mk false [] none (some "<a href=\"https://www.qtes9gu0k.xyz/\">".toList)).contents
        = none ∨
      (Data.mk false [] none (some "<a href=\"https://www.qtes9gu0k.xyz/\">".toList)).contents
        = some []) →
      ∃ msg, fetchFromLiveSite ⟨"https:".toList, "example.org".toList⟩
        (fun _ => .json ⟨false, [], none, some "<a href=\"https://www.qtes9gu0k.xyz/\">".toList⟩)
        LIVE_SITE = .error msg ∧ "no contents".toList <:+: msg) :=
  fetch_relay ⟨"https:".toList, "example.org".toList⟩
    (fun _ => .json ⟨false, [], none, some "<a href=\"https://www.qtes9gu0k.xyz/\">".toList⟩)
    LIVE_SITE ⟨false, [], none, some "<a href=\"https://www.qtes9gu0k.xyz/\">".toList⟩
    (by decide) rfl

/-! ## C5: the direct transport -/

/-- C5 (as stated, refuted): in Direct mode the page path `/a?s=b` is requested from the
search endpoint of the companion API, not from its page endpoint. -/
theorem direct_page_path_to_search :
    IS_LOCAL ⟨"http:".toList, "localhost".toList⟩ = true ∧
    requestUrl ⟨"http:".toList, "localhost".toList⟩ (LIVE_SITE ++ "/a?s=b".toList)
      = PROXY_ORIGIN ⟨"http:".toList, "localhost".toList⟩ ++ "/api/search?s=b".toList := by
  decide

/-- C5 (amended): in Direct mode, for every page path `p` that does not contain `?s=`,
`fetchFromLiveSite` of `LIVE_SITE + p` requests
`PROXY_ORIGIN + "/api/page?path=" + encodeURIComponent(p)`; a path that contains `?s=`
is requested from the search endpoint `PROXY_ORIGIN + "/api/search?s=" + ...`. -/
theorem direct_page_request (loc : Location) (p : Str) (hmode : IS_LOCAL loc = true) :
    (¬ "?s=".toList <:+: p →
      requestUrl loc (LIVE_SITE ++ p)
        = PROXY_ORIGIN loc ++ "/api/page?path=".toList ++ encodeURIComponent p) ∧
    ("?s=".toList <:+: p →
      ∃ q, requestUrl loc (LIVE_SITE ++ p)
        = PROXY_ORIGIN loc ++ "/api/search?s=".toList ++ q) := by
  constructor
  · intro h
    have h1 : ¬ "?s=".toList <:+: LIVE_SITE ++ p := by
      intro h2
      exact h (infix_append_of_head_not_mem (c := '?') (q := "s=".toList) (by decide) h2)
    have h2 : (indexOf "?s=".toList (LIVE_SITE ++ p)).isSome = false := by
      cases hi : (indexOf "?s=".toList (LIVE_SITE ++ p)).isSome with
      | false => rfl
      | true => exact absurd ((indexOf_isSome_iff _ _).1 hi) h1
    unfold requestUrl proxyUrl
    rw [if_pos hmode, h2, replaceFirst_append _ _ _ (by decide)]
    simp
  · intro h
    have h1 : "?s=".toList <:+: LIVE_SITE ++ p :=
      h.trans (List.suffix_append LIVE_SITE p).isInfix
    have h2 := (indexOf_isSome_iff _ _).2 h1
    unfold requestUrl proxyUrl
    rw [if_pos hmode, h2]
    exact ⟨_, rfl⟩

/-- Witness for C5 (amended) at the page path `/qgur/abc123/`. -/
theorem direct_page_request_witness :
    requestUrl ⟨"http:".toList, "localhost".toList⟩ (LIVE_SITE ++ "/qgur/abc123/".toList)
      = PROXY_ORIGIN ⟨"http:".toList, "localhost".toList⟩ ++ "/api/page?path=".toList
          ++ encodeURIComponent "/qgur/abc123/".toList :=
  (direct_page_request ⟨"http:".toList, "localhost".toList⟩ "/qgur/abc123/".toList
    (by decide)).1 (by decide)

/-! ## C6: mode resolution -/

/-- C6 (as stated, refuted): the loopback hosts `[::1]` and `127.0.0.2` resolve to Relay
mode. -/
theorem loopback_resolves_relay :
    isLoopbackHost "[::1]".toList = true ∧
    resolveMode ⟨"http:".toList, "[::1]".toList⟩ = .relay ∧
    isLoopbackHost "127.0.0.2".toList = true ∧
    resolveMode ⟨"http:".toList, "127.0.0.2".toList⟩ = .relay := by
  decide

/-- C6 (amended): mode resolution is a function of the host name only; a host resolves
to Direct mode exactly when its name is `localhost` or `127.0.0.1`, and to Relay mode
otherwise; every host that resolves to Direct mode is a loopback host. -/
theorem resolveMode_spec (loc : Location) :
    (∀ loc2 : Location, loc2.hostname = loc.hostname → resolveMode loc2 = resolveMode loc) ∧
    (resolveMode loc = .direct ↔
      loc.hostname = "localhost".toList ∨ loc.hostname = "127.0.0.1".toList) ∧
    (resolveMode loc = .relay ↔
      ¬ (loc.hostname = "localhost".toList ∨ loc.hostname = "127.0.0.1".toList)) ∧
    (resolveMode loc = .direct → isLoopbackHost loc.hostname = true) := by
  have key : IS_LOCAL loc = true ↔
      loc.hostname = "localhost".toList ∨ loc.hostname = "127.0.0.1".toList := by
    simp [IS_LOCAL]
  have hd : resolveMode loc = .direct ↔ IS_LOCAL loc = true := by
    unfold resolveMode
    cases IS_LOCAL loc <;> simp
  have hr : resolveMode loc = .relay ↔ ¬ IS_LOCAL loc = true := by
    unfold resolveMode
    cases IS_LOCAL loc <;> simp
  refine ⟨?_, hd.trans key, ?_, ?_⟩
  · intro loc2 h
    simp [resolveMode, IS_LOCAL, h]
  · rw [hr, key]
  · intro h
    rcases key.1 (hd.1 h) with h1 | h1 <;> rw [h1] <;> decide

/-! ## C7: the page resolver -/

theorem fetchFromLiveSite_congr (loc : Location) (net net2 : Str → Reply) (url : Str)
    (h : net2 (requestUrl loc url) = net (requestUrl loc url)) :
    fetchFromLiveSite loc net2 url = fetchFromLiveSite loc net url := by
  unfold requestUrl at h
  unfold fetchFromLiveSite
  cases hl : IS_LOCAL loc with
  | true => rw [hl] at h; simp only [if_true] at h ⊢; rw [h]
  | false =>
    rw [hl] at h
    simp only [Bool.false_eq_true, if_false] at h ⊢
    rw [h]

theorem fallback_url (rest : Str) :
    LIVE_SITE ++ replaceFirst mirrorPrefix "/".toList (mirrorPrefix ++ rest)
      = liveOrigin ++ rest := by
  rw [replaceFirst_append _ _ _ (by decide)]
  simp [LIVE_SITE, liveOrigin]

theorem openDeactivatedPage_trace (loc : Location) (net : Str → Reply) (rest : Str) :
    openDeactivatedPage loc net .notOk (mirrorPrefix ++ rest)
      = .retrieve (liveOrigin ++ rest) ::
          (match fetchFromLiveSite loc net (liveOrigin ++ rest) with
           | .ok html => [Effect.openWindow [], Effect.documentWrite html]
           | .error msg => [Effect.alert ("Failed to fetch page: ".toList ++ msg)]) ∧
    openDeactivatedPage loc net .networkError (mirrorPrefix ++ rest)
      = .retrieve (liveOrigin ++ rest) ::
          (match fetchFromLiveSite loc net (liveOrigin ++ rest) with
           | .ok html => [Effect.openWindow [], Effect.documentWrite html]
           | .error msg => [Effect.alert ("Failed to fetch page: ".toList ++ msg)]) ∧
    openDeactivatedPage loc net .ok (mirrorPrefix ++ rest)
      = [.openWindow (mirrorPrefix ++ rest)] ∧
    retrieveCalls (openDeactivatedPage loc net .notOk (mirrorPrefix ++ rest))
      = [liveOrigin ++ rest] ∧
    retrieveCalls (openDeactivatedPage loc net .networkError (mirrorPrefix ++ rest))
      = [liveOrigin ++ rest] ∧
    retrieveCalls (openDeactivatedPage loc net .ok (mirrorPrefix ++ rest)) = [] ∧
    (∀ net2 : Str → Reply,
      net2 (requestUrl loc (liveOrigin ++ rest)) = net (requestUrl loc (liveOrigin ++ rest)) →
      openDeactivatedPage loc net2 .notOk (mirrorPrefix ++ rest)
        = openDeactivatedPage loc net .notOk (mirrorPrefix ++ rest) ∧
      openDeactivatedPage loc net2 .networkError (mirrorPrefix ++ rest)
        = openDeactivatedPage loc net .networkError (mirrorPrefix ++ rest)) ∧
    (∀ net2 : Str → Reply,
      openDeactivatedPage loc net2 .ok (mirrorPrefix ++ rest)
        = openDeactivatedPage loc net .ok (mirrorPrefix ++ rest)) := by
  have hcount : ∀ (n : Str → Reply) (url : Str),
      retrieveCalls (Effect.retrieve url ::
        (match fetchFromLiveSite loc n url with
         | .ok html => [Effect.openWindow [], Effect.documentWrite html]
         | .error msg => [Effect.alert ("Failed to fetch page: ".toList ++ msg)])) = [url] := by
    intro n url
    cases fetchFromLiveSite loc n url <;> rfl
  have h1 : ∀ n : Str → Reply, openDeactivatedPage loc n .notOk (mirrorPrefix ++ rest)
      = .retrieve (liveOrigin ++ rest) ::
          (match fetchFromLiveSite loc n (liveOrigin ++ rest) with
           | .ok html => [Effect.openWindow [], Effect.documentWrite html]
           | .error msg => [Effect.alert ("Failed to fetch page: ".toList ++ msg)]) := by
    intro n
    simp only [openDeactivatedPage, fallback_url]
  have h2 : ∀ n : Str → Reply, openDeactivatedPage loc n .networkError (mirrorPrefix ++ rest)
      = .retrieve (liveOrigin ++ rest) ::
          (match fetchFromLiveSite loc n (liveOrigin ++ rest) with
           | .ok html => [Effect.openWindow [], Effect.documentWrite html]
           | .error msg => [Effect.alert ("Failed to fetch page: ".toList ++ msg)]) := by
    intro n
    simp only [openDeactivatedPage, fallback_url]
  refine ⟨h1 net, h2 net, rfl, ?_, ?_, rfl, ?_, fun _ => rfl⟩
  · rw [h1 net]; exact hcount net _
  · rw [h2 net]; exact hcount net _
  · intro net2 h
    have := fetchFromLiveSite_congr loc net net2 (liveOrigin ++ rest) h
    exact ⟨by rw [h1 net2, h1 net, this], by rw [h2 net2, h2 net, this]⟩

/-- C7: for every `localHref` that begins with the mirror prefix `/20260212/`, when the
probe answers without `ok` or fails, the whole run of `openDeactivatedPage` is one call
of `fetchFromLiveSite`, with `https://www.qtes9gu0k.xyz/` followed by the rest of
`localHref`, followed by the actions on that call's own result (the new view written
with the returned markup, or the alert with the returned error); the run reads the
network at the request of that one call only; when the probe answers `ok`, the run is
the opening of `localHref` alone and `fetchFromLiveSite` is not called. -/
theorem openDeactivatedPage_retrieve (loc : Location) (net : Str → Reply) (rest : Str) :
    openDeactivatedPage loc net .notOk ("/20260212/".toList ++ rest)
      = .retrieve ("https://www.qtes9gu0k.xyz/".toList ++ rest) ::
          (match fetchFromLiveSite loc net ("https://www.qtes9gu0k.xyz/".toList ++ rest) with
           | .ok html => [Effect.openWindow [], Effect.documentWrite html]
           | .error msg => [Effect.alert ("Failed to fetch page: ".toList ++ msg)]) ∧
    openDeactivatedPage loc net .networkError ("/20260212/".toList ++ rest)
      = .retrieve ("https://www.qtes9gu0k.xyz/".toList ++ rest) ::
          (match fetchFromLiveSite loc net ("https://www.qtes9gu0k.xyz/".toList ++ rest) with
           | .ok html => [Effect.openWindow [], Effect.documentWrite html]
           | .error msg => [Effect.alert ("Failed to fetch page: ".toList ++ msg)]) ∧
    openDeactivatedPage loc net .ok ("/20260212/".toList ++ rest)
      = [.openWindow ("/20260212/".toList ++ rest)] ∧
    retrieveCalls (openDeactivatedPage loc net .notOk ("/20260212/".toList ++ rest))
      = ["https://www.qtes9gu0k.xyz/".toList ++ rest] ∧
    retrieveCalls (openDeactivatedPage loc net .networkError ("/20260212/".toList ++ rest))
      = ["https://www.qtes9gu0k.xyz/".toList ++ rest] ∧
    retrieveCalls (openDeactivatedPage loc net .ok ("/20260212/".toList ++ rest)) = [] ∧
    (∀ net2 : Str → Reply,
      net2 (requestUrl loc ("https://www.qtes9gu0k.xyz/".toList ++ rest))
        = net (requestUrl loc ("https://www.qtes9gu0k.xyz/".toList ++ rest)) →
      openDeactivatedPage loc net2 .notOk ("/20260212/".toList ++ rest)
        = openDeactivatedPage loc net .notOk ("/20260212/".toList ++ rest) ∧
      openDeactivatedPage loc net2 .networkError ("/20260212/".toList ++ rest)
        = openDeactivatedPage loc net .networkError ("/20260212/".toList ++ rest)) ∧
    (∀ net2 : Str → Reply,
      openDeactivatedPage loc net2 .ok ("/20260212/".toList ++ rest)
        = openDeactivatedPage loc net .ok ("/20260212/".toList ++ rest)) :=
  openDeactivatedPage_trace loc net rest

/-- Witness for C7 in Relay mode: the page `/20260212/qgur/abc/` is absent locally and
the relay answers with one live-origin link, which arrives deactivated in the new view;
after an `ok` probe the local page is opened and nothing else happens. -/
theorem openDeactivatedPage_retrieve_witness :
    openDeactivatedPage ⟨"https:".toList, "example.org".toList⟩
        (fun u => if u = ALLORIGINS ++ encodeURIComponent "https://www.qtes9gu0k.xyz/qgur/abc/".toList
          then .json ⟨false, [], none, some "<a href=\"https://www.qtes9gu0k.xyz/x\">".toList⟩
          else .failed "unreachable".toList)
        .notOk "/20260212/qgur/abc/".toList
      = [.retrieve "https://www.qtes9gu0k.xyz/qgur/abc/".toList, .openWindow [],
          .documentWrite "<a href=\"/20260212/x\">".toList] ∧
    openDeactivatedPage ⟨"https:".toList, "example.org".toList⟩
        (fun u => if u = ALLORIGINS ++ encodeURIComponent "https://www.qtes9gu0k.xyz/qgur/abc/".toList
          then .json ⟨false, [], none, some "<a href=\"https://www.qtes9gu0k.xyz/x\">".toList⟩
          else .failed "unreachable".toList)
        .ok "/20260212/qgur/abc/".toList
      = [.openWindow "/20260212/qgur/abc/".toList] :=
  ⟨(openDeactivatedPage_retrieve ⟨"https:".toList, "example.org".toList⟩
      (fun u => if u = ALLORIGINS ++ encodeURIComponent "https://www.qtes9gu0k.xyz/qgur/abc/".toList
        then .json ⟨false, [], none, some "<a href=\"https://www.qtes9gu0k.xyz/x\">".toList⟩
        else .failed "unreachable".toList)
      "qgur/abc/".toList).1.trans (by decide),
   (openDeactivatedPage_retrieve ⟨"https:".toList, "example.org".toList⟩
      (fun u => if u = ALLORIGINS ++ encodeURIComponent "https://www.qtes9gu0k.xyz/qgur/abc/".toList
        then .json ⟨false, [], none, some "<a href=\"https://www.qtes9gu0k.xyz/x\">".toList⟩
        else .failed "unreachable".toList)
      "qgur/abc/".toList).2.2.1.trans (by decide)⟩

/-! ## C8: the search orchestrator -/

theorem extractResultHtml_ne_nil {h f : Str} (hf : extractResultHtml h = some f) : f ≠ [] := by
  unfold extractResultHtml at hf
  cases hs : reResult.search h with
  | none => rw [hs] at hf; cases hf
  | some x =>
    rw [hs] at hf
    simp only [Option.some.injEq] at hf
    rw [← hf]
    simp [resultAnchor]

/-- C8 (as stated, refuted): in Direct mode, for the query `a` and the retrieved markup
`<div class="p-5djb21-result"></div></div></div></main>`, `extractResultHtml` returns a
fragment, yet the orchestrator ends in Rendered-Empty. -/
theorem submit_fragment_without_item :
    fetchFromLiveSite ⟨"http:".toList, "localhost".toList⟩
        (fun _ => .json ⟨true,
          "<div class=\"p-5djb21-result\"></div></div></div></main>".toList, none, none⟩)
        (LIVE_SITE ++ "/?s=".toList ++ encodeURIComponent "a".toList)
      = .ok "<div class=\"p-5djb21-result\"></div></div></div></main>".toList ∧
    extractResultHtml "<div class=\"p-5djb21-result\"></div></div></div></main>".toList
      = some "<div class=\"p-5djb21-result\"></div>".toList ∧
    (submitHandler ⟨"http:".toList, "localhost".toList⟩
        (fun _ => .json ⟨true,
          "<div class=\"p-5djb21-result\"></div></div></div></main>".toList, none, none⟩)
        ⟨.idle, []⟩ "a".toList).phase = .renderedEmpty := by
  refine ⟨rfl, ?_, ?_⟩
  · decide
  · decide

/-- C8 (amended): for every non-empty query and every markup `h` returned by a
successful `fetchFromLiveSite`: if `h` contains the marker `p-5djb21-result__item` and
`extractResultHtml h` returns a fragment, the orchestrator ends in Rendered-Results and
the result area holds exactly that fragment; if `h` does not contain the marker, the
orchestrator ends in Rendered-Empty. -/
theorem submit_results (loc : Location) (net : Str → Reply) (area : ResultArea)
    (query h : Str) (hq : query ≠ [])
    (hfetch : fetchFromLiveSite loc net
      (LIVE_SITE ++ "/?s=".toList ++ encodeURIComponent query) = .ok h) :
    (∀ f, itemMarker <:+: h → extractResultHtml h = some f →
      submitHandler loc net area query = ⟨.renderedResults, f⟩) ∧
    (¬ itemMarker <:+: h → (submitHandler loc net area query).phase = .renderedEmpty) := by
  constructor
  · intro f hm hf
    have h1 := (indexOf_isSome_iff itemMarker h).2 hm
    have h2 := extractResultHtml_ne_nil hf
    unfold submitHandler
    rw [if_neg hq, hfetch]
    simp [h1, hf, showResults, h2]
  · intro hm
    have h1 : (indexOf itemMarker h).isSome = false := by
      cases hi : (indexOf itemMarker h).isSome with
      | false => rfl
      | true => exact absurd ((indexOf_isSome_iff _ _).1 hi) hm
    unfold submitHandler
    rw [if_neg hq, hfetch]
    simp [h1, showResults]

/-- Witness for C8 (amended): Direct mode, one result item. -/
theorem submit_results_witness :
    submitHandler ⟨"http:".toList, "localhost".toList⟩
        (fun _ => .json ⟨true,
          "<main><div><div><div class=\"p-5djb21-result\"><li class=\"p-5djb21-result__item\">x</li></div></div></div></main>".toList,
          none, none⟩)
        ⟨.idle, []⟩ "a".toList
      = ⟨.renderedResults,
          "<div class=\"p-5djb21-result\"><li class=\"p-5djb21-result__item\">x</li></div>".toList⟩ :=
  (submit_results ⟨"http:".toList, "localhost".toList⟩
    (fun _ => .json ⟨true,
      "<main><div><div><div class=\"p-5djb21-result\"><li class=\"p-5djb21-result__item\">x</li></div></div></div></main>".toList,
      none, none⟩)
    ⟨.idle, []⟩ "a".toList _ (by decide) rfl).1 _ (by decide) (by decide)

/-! ## C9: composing a character -/

/-- C9 (as stated, refuted): with the loaded table `{"a": {"b": ""}}` and the selections
`a` and `b`, whose entry is present, `mergeRadicals` clears neither selection. -/
theorem merge_empty_unit_keeps_selection :
    (mergeRadicals
        (some fun l => if l = "a".toList then
          some fun r => if r = "b".toList then some [] else none else none)
        ⟨"x".toList, some "a".toList, some "b".toList, false⟩)
      = ⟨"x".toList, some "a".toList, some "b".toList, false⟩ := by
  decide

/-- C9 (amended): for every loaded table and every pair of selections whose entry is
present in the table and is not the empty string, `mergeRadicals` appends exactly that
entry once to the input value, clears both selections and enables the submit button. -/
theorem mergeRadicals_present (km : KeyMap) (st : Keypad) (lv rv : Str)
    (row : Str → Option Str) (unit : Str) (hl : st.left = some lv) (hr : st.right = some rv)
    (hrow : km lv = some row) (hunit : row rv = some unit) (hne : unit ≠ []) :
    mergeRadicals (some km) st
      = ⟨st.inputValue ++ unit, none, none, false⟩ := by
  have hlen : ((st.inputValue ++ unit).length == 0) = false := by
    cases unit with
    | nil => exact absurd rfl hne
    | cons c cs => simp
  simp [mergeRadicals, hl, hr, hrow, hunit, hne, updateSubmitButton, hlen]

/-- Witness for C9 (amended): the table `{"a": {"b": "X"}}`. -/
theorem mergeRadicals_present_witness :
    mergeRadicals
        (some fun l => if l = "a".toList then
          some fun r => if r = "b".toList then some "X".toList else none else none)
        ⟨"x".toList, some "a".toList, some "b".toList, true⟩
      = ⟨"x".toList ++ "X".toList, none, none, false⟩ :=
  mergeRadicals_present
    (fun l => if l = "a".toList then
      some fun r => if r = "b".toList then some "X".toList else none else none)
    ⟨"x".toList, some "a".toList, some "b".toList, true⟩ "a".toList "b".toList
    (fun r => if r = "b".toList then some "X".toList else none) "X".toList
    rfl rfl (by simp) (by simp) (by decide)

end SearchLocal
